import Mathlib

/-!
# Verification of the tape-machine expression evaluator

A shallow embedding of `ao/src/eval/evaluator.cpp` (namespace `Kernel`):
the clause/tape data model, the forward value, derivative, interval and
Jacobian kernels, the tape-stack engine (`push`, `pushTape`, `specialize`,
`push (Feature)`, `pop`, `baseEval`), feature enumeration (`featuresAt`),
surface classification (`isInside`) and the variable-state operations
(`setVar`, `updateVars`).

Numeric values are modelled as rationals (`ℚ`).  Transcendental primitives
(sqrt, sin, atan2, pow with non-integer exponent, and the interval versions
of the non-algebraic operators), which the C++ code takes from `<cmath>`
and `boost::numeric`, have no computable rational counterpart; they are
collected in a `Transc` record and every development is parametric over it.
NaN is a floating-point artifact with no rational counterpart: `NANFILL`
passes its first argument through (the `isnan` test is constantly false in
this model).
-/

namespace LibfiveEval

/-- The opcode enumeration (`Opcode::Opcode`). -/
inductive Opcode where
  | ADD | SUB | MUL | DIV | MIN | MAX | ATAN2 | POW | NTH_ROOT | MOD | NANFILL
  | NEG | SQUARE | SQRT | SIN | COS | TAN | ASIN | ACOS | ATAN | EXP | CONST_VAR
  | VAR_X | VAR_Y | VAR_Z | VAR | CONST
  | INVALID | LAST_OP
  deriving DecidableEq, Repr

/-- One tape instruction (`Clause`): operator, destination slot, two source slots. -/
structure Clause where
  op : Opcode
  id : Nat
  a : Nat
  b : Nat
  deriving DecidableEq, Repr

/-- Tape type tags (`Tape::Type`). -/
inductive TapeType where
  | ORIGINAL | INTERVAL | FEATURE | SPECIALIZED
  deriving DecidableEq, Repr

/-- An interval, as a pair (lower, upper). -/
abbrev Iv : Type := ℚ × ℚ

/-- A 3-vector of rationals. -/
abbrev Vec3 : Type := ℚ × ℚ × ℚ

/-- One tape (`Tape`): clause list (root-first, evaluated from the back),
root slot `i`, a type tag, and the box the tape was interval-pushed against. -/
structure Tape where
  t : List Clause
  i : Nat
  type : TapeType
  X : Iv
  Y : Iv
  Z : Iv
  deriving DecidableEq, Repr

instance : Inhabited Tape := ⟨⟨[], 0, TapeType.ORIGINAL, (0, 0), (0, 0), (0, 0)⟩⟩

/-- Pointwise update of a slot-indexed row array. -/
def upd {α : Type} (f : Nat → α) (k : Nat) (v : α) : Nat → α :=
  fun x => if x = k then v else f x

/-- The transcendental / non-rational numeric primitives the evaluator consumes
from `<cmath>` and `boost::numeric` (out of scope per the spec, which assumes
"interval primitives for every supported op, plus elementwise math"). -/
structure Transc where
  sqrt : ℚ → ℚ
  sin : ℚ → ℚ
  cos : ℚ → ℚ
  tan : ℚ → ℚ
  asin : ℚ → ℚ
  acos : ℚ → ℚ
  atan : ℚ → ℚ
  exp : ℚ → ℚ
  atan2 : ℚ → ℚ → ℚ
  powf : ℚ → ℚ → ℚ
  iop : Opcode → Iv → Iv → Iv

/-- Truncation toward zero, as performed by C `fmod`'s implied quotient. -/
def truncQ (x : ℚ) : ℤ :=
  if 0 ≤ x then ⌊x⌋ else ⌈x⌉

/-- C `fmod`: `a - b * trunc(a / b)` (remainder with the sign of `a`). -/
def fmodQ (a b : ℚ) : ℚ :=
  a - b * (truncQ (a / b) : ℚ)

/-- The `while (out < 0) out += b;` loop of the MOD case of `Evaluator::values`,
with explicit fuel.  For `0 < b` the loop body runs at most once, since
`fmod(a,b)` lies in `(-b, b)`. -/
def fmodLoop (b : ℚ) : Nat → ℚ → ℚ
  | 0, t => t
  | n + 1, t => if t < 0 then fmodLoop b n (t + b) else t

/-- The MOD clause of the forward value kernel: `fmod(a, b)`, then `b` added
until the result is non-negative.  One unit of fuel realizes the C++ loop
exactly whenever it terminates with `0 < b`. -/
def modValue (a b : ℚ) : ℚ :=
  fmodLoop b 1 (fmodQ a b)

/-- One clause of the forward value kernel: the per-opcode switch inside
`Evaluator::values`, for a single batch column. -/
def evalClauseValue (T : Transc) (op : Opcode) (a b : ℚ) : ℚ :=
  match op with
  | Opcode.ADD => a + b
  | Opcode.MUL => a * b
  | Opcode.MIN => min a b
  | Opcode.MAX => max a b
  | Opcode.SUB => a - b
  | Opcode.DIV => a / b
  | Opcode.ATAN2 => T.atan2 a b
  | Opcode.POW => T.powf a b
  | Opcode.NTH_ROOT => T.powf a (1 / b)
  | Opcode.MOD => modValue a b
  | Opcode.NANFILL => a
  | Opcode.SQUARE => a * a
  | Opcode.SQRT => T.sqrt a
  | Opcode.NEG => -a
  | Opcode.SIN => T.sin a
  | Opcode.COS => T.cos a
  | Opcode.TAN => T.tan a
  | Opcode.ASIN => T.asin a
  | Opcode.ACOS => T.acos a
  | Opcode.ATAN => T.atan a
  | Opcode.EXP => T.exp a
  | Opcode.CONST_VAR => a
  | _ => 0

/-- The forward value sweep over a clause list: clauses are evaluated from the
back of the list forward (`rbegin` to `rend`), each writing its destination
slot of the result row. -/
def valuesSweepL (T : Transc) (cs : List Clause) (m : Nat → ℚ) : Nat → ℚ :=
  cs.foldr (fun c acc => upd acc c.id (evalClauseValue T c.op (acc c.a) (acc c.b))) m

/-- The whole evaluator state: the tape stack (index 0 = the base `ORIGINAL`
tape) with its current-tape cursor, the result arena (column 0 of the value
row, the three spatial-derivative rows, the interval slots and the per-slot
variable Jacobians), the slot-to-variable bimap, the cached X/Y/Z slot ids,
and `N`, the allocated slot count (`clauses.size() + 1`). -/
structure EvalState where
  tapes : List Tape
  cursor : Nat
  store : Nat → ℚ
  dxs : Nat → ℚ
  dys : Nat → ℚ
  dzs : Nat → ℚ
  ivals : Nat → Iv
  jstore : Nat → List ℚ
  vars : List (Nat × Nat)
  Xid : Nat
  Yid : Nat
  Zid : Nat
  N : Nat

/-- The tape the cursor currently points at. -/
def currentTape (s : EvalState) : Tape :=
  s.tapes.getD s.cursor default

/-- Modelled from the spec: `set(p, 0)` (declared in `evaluator.hpp`, not in
`src/`) stores the point's coordinates into column 0 of the X, Y, Z value
rows of the result arena. -/
def setPoint (s : EvalState) (p : Vec3) : EvalState :=
  { s with store := upd (upd (upd s.store s.Xid p.1) s.Yid p.2.1) s.Zid p.2.2 }

/-- `Evaluator::eval(p)`: `set(p, 0)` followed by `values(1)`, returning the
root slot's value; the value rows written by the sweep persist in the arena. -/
def evalVApi (T : Transc) (s : EvalState) (p : Vec3) : ℚ × EvalState :=
  let s1 := setPoint s p
  let m := valuesSweepL T (currentTape s1).t s1.store
  (m (currentTape s1).i, { s1 with store := m })

/-- One clause of the interval kernel (`Evaluator::eval_clause_interval`).
The algebraically definable cases are given exactly; division (whose
zero-straddling case yields infinities), the exponent-based and the
transcendental cases come from the `boost::numeric` primitives abstracted
in `Transc.iop`. -/
def evalClauseIv (T : Transc) (op : Opcode) (a b : Iv) : Iv :=
  match op with
  | Opcode.ADD => (a.1 + b.1, a.2 + b.2)
  | Opcode.MUL =>
      (min (min (a.1 * b.1) (a.1 * b.2)) (min (a.2 * b.1) (a.2 * b.2)),
       max (max (a.1 * b.1) (a.1 * b.2)) (max (a.2 * b.1) (a.2 * b.2)))
  | Opcode.MIN => (min a.1 b.1, min a.2 b.2)
  | Opcode.MAX => (max a.1 b.1, max a.2 b.2)
  | Opcode.SUB => (a.1 - b.2, a.2 - b.1)
  | Opcode.MOD => (0, b.2)
  | Opcode.NANFILL => a
  | Opcode.SQUARE =>
      if 0 ≤ a.1 then (a.1 * a.1, a.2 * a.2)
      else if a.2 ≤ 0 then (a.2 * a.2, a.1 * a.1)
      else (0, max (a.1 * a.1) (a.2 * a.2))
  | Opcode.NEG => (-a.2, -a.1)
  | Opcode.CONST_VAR => a
  | Opcode.DIV => T.iop op a b
  | Opcode.ATAN2 => T.iop op a b
  | Opcode.POW => T.iop op a b
  | Opcode.NTH_ROOT => T.iop op a b
  | Opcode.SQRT => T.iop op a b
  | Opcode.SIN => T.iop op a b
  | Opcode.COS => T.iop op a b
  | Opcode.TAN => T.iop op a b
  | Opcode.ASIN => T.iop op a b
  | Opcode.ACOS => T.iop op a b
  | Opcode.ATAN => T.iop op a b
  | Opcode.EXP => T.iop op a b
  | _ => (0, 0)

/-- The interval sweep (`Evaluator::interval`), from the back of the tape
forward, over the persistent interval slots. -/
def ivalSweepL (T : Transc) (cs : List Clause) (m : Nat → Iv) : Nat → Iv :=
  cs.foldr (fun c acc => upd acc c.id (evalClauseIv T c.op (acc c.a) (acc c.b))) m

/-- `Evaluator::eval(lower, upper)`: `set(lower, upper)` writes the box into
the X, Y, Z interval slots, then `interval()` sweeps the current tape. -/
def evalIApi (T : Transc) (s : EvalState) (lo hi : Vec3) : Iv × EvalState :=
  let iv1 := upd (upd (upd s.ivals s.Xid (lo.1, hi.1)) s.Yid (lo.2.1, hi.2.1)) s.Zid
    (lo.2.2, hi.2.2)
  let m := ivalSweepL T (currentTape s).t iv1
  (m (currentTape s).i, { s with ivals := m })

/-- The three spatial-derivative rows of the arena. -/
structure DStore where
  dx : Nat → ℚ
  dy : Nat → ℚ
  dz : Nat → ℚ

/-- One clause of the spatial-derivative kernel: the per-opcode switch inside
`Evaluator::derivs`, for one batch column.  `m` is the value row (already
filled by the preceding `values` sweep).  The C++ code reuses the `odz` row
as a temporary in several cases, writing it before `odx`/`ody` and reading
it back; the writes are reproduced in the same order. -/
def derivStep (T : Transc) (m : Nat → ℚ) (d : DStore) (c : Clause) : DStore :=
  match c.op with
  | Opcode.ADD =>
      ⟨upd d.dx c.id (d.dx c.a + d.dx c.b), upd d.dy c.id (d.dy c.a + d.dy c.b),
       upd d.dz c.id (d.dz c.a + d.dz c.b)⟩
  | Opcode.MUL =>
      ⟨upd d.dx c.id (m c.a * d.dx c.b + d.dx c.a * m c.b),
       upd d.dy c.id (m c.a * d.dy c.b + d.dy c.a * m c.b),
       upd d.dz c.id (m c.a * d.dz c.b + d.dz c.a * m c.b)⟩
  | Opcode.MIN =>
      ⟨upd d.dx c.id (if m c.a < m c.b then d.dx c.a else d.dx c.b),
       upd d.dy c.id (if m c.a < m c.b then d.dy c.a else d.dy c.b),
       upd d.dz c.id (if m c.a < m c.b then d.dz c.a else d.dz c.b)⟩
  | Opcode.MAX =>
      ⟨upd d.dx c.id (if m c.a < m c.b then d.dx c.b else d.dx c.a),
       upd d.dy c.id (if m c.a < m c.b then d.dy c.b else d.dy c.a),
       upd d.dz c.id (if m c.a < m c.b then d.dz c.b else d.dz c.a)⟩
  | Opcode.SUB =>
      ⟨upd d.dx c.id (d.dx c.a - d.dx c.b), upd d.dy c.id (d.dy c.a - d.dy c.b),
       upd d.dz c.id (d.dz c.a - d.dz c.b)⟩
  | Opcode.DIV =>
      let dz1 := upd d.dz c.id (m c.b ^ 2)
      let dx1 := upd d.dx c.id ((m c.b * d.dx c.a - m c.a * d.dx c.b) / dz1 c.id)
      let dy1 := upd d.dy c.id ((m c.b * d.dy c.a - m c.a * d.dy c.b) / dz1 c.id)
      ⟨dx1, dy1, upd dz1 c.id ((m c.b * dz1 c.a - m c.a * dz1 c.b) / dz1 c.id)⟩
  | Opcode.ATAN2 =>
      let dz1 := upd d.dz c.id (m c.a ^ 2 + m c.b ^ 2)
      let dx1 := upd d.dx c.id ((d.dx c.a * m c.b - m c.a * d.dx c.b) / dz1 c.id)
      let dy1 := upd d.dy c.id ((d.dy c.a * m c.b - m c.a * d.dy c.b) / dz1 c.id)
      ⟨dx1, dy1, upd dz1 c.id ((dz1 c.a * m c.b - m c.a * dz1 c.b) / dz1 c.id)⟩
  | Opcode.POW =>
      let dz1 := upd d.dz c.id (T.powf (m c.a) (m c.b - 1))
      let dx1 := upd d.dx c.id (dz1 c.id * (m c.b * d.dx c.a))
      let dy1 := upd d.dy c.id (dz1 c.id * (m c.b * d.dy c.a))
      ⟨dx1, dy1, upd dz1 c.id (dz1 c.id * (m c.b * dz1 c.a))⟩
  | Opcode.NTH_ROOT =>
      let dz1 := upd d.dz c.id (1 / m c.b)
      let dz2 := upd dz1 c.id (T.powf (m c.a) (dz1 c.id - 1) * dz1 c.id)
      let dx1 := upd d.dx c.id (dz2 c.id * d.dx c.a)
      let dy1 := upd d.dy c.id (dz2 c.id * d.dy c.a)
      ⟨dx1, dy1, upd dz2 c.id (dz2 c.id * dz2 c.a)⟩
  | Opcode.MOD =>
      ⟨upd d.dx c.id (d.dx c.a), upd d.dy c.id (d.dy c.a), upd d.dz c.id (d.dz c.a)⟩
  | Opcode.NANFILL =>
      ⟨upd d.dx c.id (d.dx c.a), upd d.dy c.id (d.dy c.a), upd d.dz c.id (d.dz c.a)⟩
  | Opcode.SQUARE =>
      let dz1 := upd d.dz c.id (2 * m c.a)
      let dx1 := upd d.dx c.id (dz1 c.id * d.dx c.a)
      let dy1 := upd d.dy c.id (dz1 c.id * d.dy c.a)
      ⟨dx1, dy1, upd dz1 c.id (dz1 c.id * dz1 c.a)⟩
  | Opcode.SQRT =>
      ⟨upd d.dx c.id (if m c.a < 0 then 0 else d.dx c.a / (2 * m c.id)),
       upd d.dy c.id (if m c.a < 0 then 0 else d.dy c.a / (2 * m c.id)),
       upd d.dz c.id (if m c.a < 0 then 0 else d.dz c.a / (2 * m c.id))⟩
  | Opcode.NEG =>
      ⟨upd d.dx c.id (-(d.dx c.a)), upd d.dy c.id (-(d.dy c.a)),
       upd d.dz c.id (-(d.dz c.a))⟩
  | Opcode.SIN =>
      let dz1 := upd d.dz c.id (T.cos (m c.a))
      let dx1 := upd d.dx c.id (d.dx c.a * dz1 c.id)
      let dy1 := upd d.dy c.id (d.dy c.a * dz1 c.id)
      ⟨dx1, dy1, upd dz1 c.id (dz1 c.a * dz1 c.id)⟩
  | Opcode.COS =>
      let dz1 := upd d.dz c.id (-(T.sin (m c.a)))
      let dx1 := upd d.dx c.id (d.dx c.a * dz1 c.id)
      let dy1 := upd d.dy c.id (d.dy c.a * dz1 c.id)
      ⟨dx1, dy1, upd dz1 c.id (dz1 c.a * dz1 c.id)⟩
  | Opcode.TAN =>
      let dz1 := upd d.dz c.id ((1 / T.cos (m c.a)) ^ 2)
      let dx1 := upd d.dx c.id (d.dx c.a * dz1 c.id)
      let dy1 := upd d.dy c.id (d.dy c.a * dz1 c.id)
      ⟨dx1, dy1, upd dz1 c.id (dz1 c.a * dz1 c.id)⟩
  | Opcode.ASIN =>
      let dz1 := upd d.dz c.id (T.sqrt (1 - m c.a ^ 2))
      let dx1 := upd d.dx c.id (d.dx c.a / dz1 c.id)
      let dy1 := upd d.dy c.id (d.dy c.a / dz1 c.id)
      ⟨dx1, dy1, upd dz1 c.id (dz1 c.a / dz1 c.id)⟩
  | Opcode.ACOS =>
      let dz1 := upd d.dz c.id (-(T.sqrt (1 - m c.a ^ 2)))
      let dx1 := upd d.dx c.id (d.dx c.a / dz1 c.id)
      let dy1 := upd d.dy c.id (d.dy c.a / dz1 c.id)
      ⟨dx1, dy1, upd dz1 c.id (dz1 c.a / dz1 c.id)⟩
  | Opcode.ATAN =>
      let dz1 := upd d.dz c.id (m c.a ^ 2 + 1)
      let dx1 := upd d.dx c.id (d.dx c.a / dz1 c.id)
      let dy1 := upd d.dy c.id (d.dy c.a / dz1 c.id)
      ⟨dx1, dy1, upd dz1 c.id (dz1 c.a / dz1 c.id)⟩
  | Opcode.EXP =>
      let dz1 := upd d.dz c.id (T.exp (m c.a))
      let dx1 := upd d.dx c.id (dz1 c.id * d.dx c.a)
      let dy1 := upd d.dy c.id (dz1 c.id * d.dy c.a)
      ⟨dx1, dy1, upd dz1 c.id (dz1 c.id * dz1 c.a)⟩
  | Opcode.CONST_VAR =>
      ⟨upd d.dx c.id (d.dx c.a), upd d.dy c.id (d.dy c.a), upd d.dz c.id (d.dz c.a)⟩
  | _ => d

/-- The spatial-derivative sweep (second half of `Evaluator::derivs`). -/
def derivSweepL (T : Transc) (cs : List Clause) (m : Nat → ℚ) (d : DStore) : DStore :=
  cs.foldr (fun c acc => derivStep T m acc c) d

/-- The root value and root spatial derivative returned by `derivs`. -/
structure DRes where
  v : ℚ
  dx : ℚ
  dy : ℚ
  dz : ℚ
  deriving DecidableEq, Repr

/-- `Evaluator::derivs(1)`: a `values` sweep followed by the derivative sweep
on the current tape; both the value and derivative rows persist. -/
def derivsApi (T : Transc) (s : EvalState) : DRes × EvalState :=
  let τ := currentTape s
  let m := valuesSweepL T τ.t s.store
  let d := derivSweepL T τ.t m ⟨s.dxs, s.dys, s.dzs⟩
  (⟨m τ.i, d.dx τ.i, d.dy τ.i, d.dz τ.i⟩,
   { s with store := m, dxs := d.dx, dys := d.dy, dzs := d.dz })

/-- Point-parameterized derivative evaluation: `set(p, 0)` then `derivs(1)`,
as performed by `isInside` and by callers of the derivative kernel. -/
def derivsAt (T : Transc) (s : EvalState) (p : Vec3) : DRes × EvalState :=
  derivsApi T (setPoint s p)

/-- One clause of the variable-Jacobian kernel
(`Evaluator::eval_clause_jacobians`), propagating a `|vars|`-length Jacobian
vector elementwise; `av`, `bv` are the operand values from the value row. -/
def jacClause (T : Transc) (op : Opcode) (av : ℚ) (aj : List ℚ) (bv : ℚ)
    (bj : List ℚ) : List ℚ :=
  match op with
  | Opcode.ADD => List.zipWith (fun x y => x + y) aj bj
  | Opcode.MUL => List.zipWith (fun x y => av * y + bv * x) aj bj
  | Opcode.MIN => if av < bv then aj else bj
  | Opcode.MAX => if av < bv then bj else aj
  | Opcode.SUB => List.zipWith (fun x y => x - y) aj bj
  | Opcode.DIV => List.zipWith (fun x y => (bv * x - av * y) / bv ^ 2) aj bj
  | Opcode.ATAN2 => List.zipWith (fun x y => (x * bv - av * y) / (av ^ 2 + bv ^ 2)) aj bj
  | Opcode.POW => aj.map (fun x => T.powf av (bv - 1) * (bv * x))
  | Opcode.NTH_ROOT => aj.map (fun x => T.powf av (1 / bv - 1) * (1 / bv * x))
  | Opcode.MOD => aj
  | Opcode.NANFILL => aj
  | Opcode.SQUARE => aj.map (fun x => 2 * av * x)
  | Opcode.SQRT => aj.map (fun x => if av < 0 then 0 else x / (2 * T.sqrt av))
  | Opcode.NEG => aj.map (fun x => -x)
  | Opcode.SIN => aj.map (fun x => x * T.cos av)
  | Opcode.COS => aj.map (fun x => x * (-(T.sin av)))
  | Opcode.TAN => aj.map (fun x => x * (1 / T.cos av) ^ 2)
  | Opcode.ASIN => aj.map (fun x => x / T.sqrt (1 - av ^ 2))
  | Opcode.ACOS => aj.map (fun x => x / (-(T.sqrt (1 - av ^ 2))))
  | Opcode.ATAN => aj.map (fun x => x / (av ^ 2 + 1))
  | Opcode.EXP => aj.map (fun x => T.exp av * x)
  | Opcode.CONST_VAR => aj.map (fun _ => 0)
  | _ => aj

/-- The Jacobian sweep of `Evaluator::gradient`, from the back of the tape
forward, reading operand values from the value row `m`. -/
def jacSweepL (T : Transc) (cs : List Clause) (m : Nat → ℚ) (j : Nat → List ℚ) :
    Nat → List ℚ :=
  cs.foldr (fun c acc => upd acc c.id (jacClause T c.op (m c.a) (acc c.a) (m c.b) (acc c.b))) j

/-- `Evaluator::gradient(p)`: `set(p, 0)`, a `values(1)` sweep, the Jacobian
sweep, then unpacking the root slot's Jacobian vector into a per-variable
association list (in the `vars.left` iteration order). -/
def gradientApi (T : Transc) (s : EvalState) (p : Vec3) :
    List (Nat × ℚ) × EvalState :=
  let s1 := setPoint s p
  let τ := currentTape s1
  let m := valuesSweepL T τ.t s1.store
  let j := jacSweepL T τ.t m s1.jstore
  (s1.vars.enum.map (fun iv => (iv.2.2, (j τ.i).getD iv.1 0)),
   { s1 with store := m, jstore := j })

/-! ## The tape-stack engine -/

/-- The `disabled` / `remap` scratch arrays driving a push. -/
structure PushState where
  dis : Nat → Bool
  rmp : Nat → Nat

/-- The body of the clause loop of `Evaluator::push` for one clause: if the
clause is live, a MIN/MAX whose operand intervals are decisively ordered
collapses to the surviving branch (marking it live and remapping the clause's
slot to it); a clause that did not collapse keeps both operands live, and one
that did is itself disabled. -/
def pushStep (iv : Nat → Iv) (st : PushState) (c : Clause) : PushState :=
  if st.dis c.id then st
  else
    let st1 :=
      if c.op = Opcode.MAX then
        if (iv c.a).1 > (iv c.b).2 then
          ⟨upd st.dis c.a false, upd st.rmp c.id c.a⟩
        else if (iv c.b).1 > (iv c.a).2 then
          ⟨upd st.dis c.b false, upd st.rmp c.id c.b⟩
        else st
      else if c.op = Opcode.MIN then
        if (iv c.a).1 > (iv c.b).2 then
          ⟨upd st.dis c.b false, upd st.rmp c.id c.b⟩
        else if (iv c.b).1 > (iv c.a).2 then
          ⟨upd st.dis c.a false, upd st.rmp c.id c.a⟩
        else st
      else st
    if st1.rmp c.id = 0 then
      ⟨upd (upd st1.dis c.a false) c.b false, st1.rmp⟩
    else
      ⟨upd st1.dis c.id true, st1.rmp⟩

/-- The clause loop of `Evaluator::push`: scratch arrays reset (everything
disabled, no remaps, the root re-enabled), then `pushStep` folded over the
current tape in order. -/
def pushScan (iv : Nat → Iv) (τ : Tape) : PushState :=
  τ.t.foldl (pushStep iv) ⟨fun x => if x = τ.i then false else true, fun _ => 0⟩

/-- The remap-chasing loop `for (ra = c.a; remap[ra]; ra = remap[ra]);` of
`Evaluator::pushTape`, with explicit fuel: follow `rmp` until it maps the
slot to 0.  Fuel `N` (the slot count) suffices because every remap points to
a strictly larger slot id. -/
def chase (rmp : Nat → Nat) : Nat → Nat → Nat
  | 0, x => x
  | n + 1, x => if rmp x = 0 then x else chase rmp n (rmp x)

/-- The clause-filtering loop of `Evaluator::pushTape`: walk the parent tape
in order, dropping disabled clauses and rewriting the operands of retained
ones through the remap chain. -/
def pushTapeClauses (n : Nat) (st : PushState) (prev : List Clause) : List Clause :=
  prev.foldl
    (fun acc c =>
      if st.dis c.id then acc
      else acc ++ [⟨c.op, c.id, chase st.rmp n c.a, chase st.rmp n c.b⟩]) []

/-- Writing the new tape into the stack slot above the cursor: reuse the
retained next tape if one exists (`std::list` reuse), else append a new one. -/
def setOrAppend (l : List Tape) (k : Nat) (τ : Tape) : List Tape :=
  if k < l.length then l.set k τ else l ++ [τ]

/-- `Evaluator::pushTape(t)`: materialize the reduced tape from `disabled` /
`remap` into the next stack slot, remap the root, set the type tag and
advance the cursor.  The reused slot's stored box is untouched (the C++
code never clears `Tape::X/Y/Z`; only an interval push overwrites them). -/
def pushTapeOp (s : EvalState) (st : PushState) (ty : TapeType) : EvalState :=
  let prev := currentTape s
  let old := s.tapes.getD (s.cursor + 1) default
  let newT : Tape :=
    { t := pushTapeClauses s.N st prev.t, i := chase st.rmp s.N prev.i, type := ty,
      X := old.X, Y := old.Y, Z := old.Z }
  { s with tapes := setOrAppend s.tapes (s.cursor + 1) newT, cursor := s.cursor + 1 }

/-- `Evaluator::push()`: the interval-driven collapse scan followed by
`pushTape(INTERVAL)`, recording the driving box on the new tape. -/
def pushI (s : EvalState) : EvalState :=
  let st := pushScan s.ivals (currentTape s)
  let s1 := pushTapeOp s st TapeType.INTERVAL
  { s1 with
    tapes := s1.tapes.set s1.cursor
      { currentTape s1 with X := s.ivals s.Xid, Y := s.ivals s.Yid, Z := s.ivals s.Zid } }

/-- `Evaluator::pop()`: move the cursor down one tape; storage is retained. -/
def popOp (s : EvalState) : EvalState :=
  { s with cursor := s.cursor - 1 }

/-- The body of the clause loop of `Evaluator::specialize` for one clause:
the same collapse logic as `push()`, but comparing column-0 float values
with strict `>` instead of intervals. -/
def specStep (fv : Nat → ℚ) (st : PushState) (c : Clause) : PushState :=
  if st.dis c.id then st
  else
    let st1 :=
      if c.op = Opcode.MAX then
        if fv c.a > fv c.b then ⟨upd st.dis c.a false, upd st.rmp c.id c.a⟩
        else if fv c.b > fv c.a then ⟨upd st.dis c.b false, upd st.rmp c.id c.b⟩
        else st
      else if c.op = Opcode.MIN then
        if fv c.a > fv c.b then ⟨upd st.dis c.b false, upd st.rmp c.id c.b⟩
        else if fv c.b > fv c.a then ⟨upd st.dis c.a false, upd st.rmp c.id c.a⟩
        else st
      else st
    if st1.rmp c.id = 0 then
      ⟨upd (upd st1.dis c.a false) c.b false, st1.rmp⟩
    else
      ⟨upd st1.dis c.id true, st1.rmp⟩

/-- The clause loop of `Evaluator::specialize`. -/
def specScan (fv : Nat → ℚ) (τ : Tape) : PushState :=
  τ.t.foldl (specStep fv) ⟨fun x => if x = τ.i then false else true, fun _ => 0⟩

/-- `Evaluator::specialize(p)`: evaluate at `p` (loading the value rows),
collapse by float comparison, and push a `SPECIALIZED` tape. -/
def specializeOp (T : Transc) (s : EvalState) (p : Vec3) : EvalState :=
  let s1 := (evalVApi T s p).2
  pushTapeOp s1 (specScan s1.store (currentTape s1)) TapeType.SPECIALIZED

/-! ## Features

`Feature` lives in `ao/src/eval/feature.cpp`, which is not part of the
sources here; it is modelled from the spec. -/

/-- A branch choice `(clause-id, branch ∈ {0,1})` (`Feature::Choice`). -/
structure Choice where
  id : Nat
  choice : Nat
  deriving DecidableEq, Repr

/-- Modelled from the spec: a `Feature` (from `feature.cpp`, not in `src/`)
carries the gradient implied so far, the list of branch choices taken at
ambiguous MIN/MAX clauses, and the epsilon direction constraints recorded
with some of those choices ("each choice is (clause-id, branch ∈ {0,1}) with
an optional epsilon direction"). -/
structure Feature where
  deriv : Vec3
  choices : List Choice
  epsilons : List (Nat × Vec3)
  deriving DecidableEq, Repr

instance : Inhabited Feature := ⟨⟨(0, 0, 0), [], []⟩⟩

/-- Modelled from the spec: `Feature::push_choice_raw` records a choice
without a direction constraint and without a feasibility check. -/
def Feature.pushChoiceRaw (f : Feature) (ch : Choice) : Feature :=
  { f with choices := f.choices ++ [ch] }

/-- Modelled from the spec: `Feature::push_raw` records a choice together
with its epsilon direction, without a feasibility check. -/
def Feature.pushRaw (f : Feature) (ch : Choice) (eps : Vec3) : Feature :=
  { f with choices := f.choices ++ [ch], epsilons := f.epsilons ++ [(ch.id, eps)] }

/-- Modelled from the spec: `Feature::hasEpsilon(id)`. -/
def Feature.hasEps (f : Feature) (id : Nat) : Bool :=
  (f.epsilons.find? (fun e => e.1 = id)).isSome

/-- Modelled from the spec: `Feature::getEpsilon(id)`. -/
def Feature.getEps (f : Feature) (id : Nat) : Vec3 :=
  ((f.epsilons.find? (fun e => e.1 = id)).getD (id, (0, 0, 0))).2

/-- Modelled from the spec: `Feature::push(epsilon, choice)` "accepts an
additional (id, branch, direction) constraint only if the intersection of
all its direction constraints is non-empty — the Feature carries a running
half-space system; infeasible additions are rejected."  The feasibility test
of that half-space system (a linear-programming check in `feature.cpp`) is
abstracted as the predicate `compat` on the accumulated direction list. -/
def Feature.push (compat : List Vec3 → Vec3 → Bool) (f : Feature) (eps : Vec3)
    (ch : Choice) : Option Feature :=
  if compat (f.epsilons.map (fun e => e.2)) eps then some (f.pushRaw ch eps)
  else none

/-- The fold state of the clause loop of `Evaluator::push(const Feature&)`:
scratch arrays, the minimized output feature, and the unconsumed tail of the
input feature's choice list (the choice iterator). -/
structure PFAcc where
  dis : Nat → Bool
  rmp : Nat → Nat
  out : Feature
  rest : List Choice

/-- The body of the clause loop of `Evaluator::push(const Feature&)`: a
clause matches when it is an ambiguous MIN/MAX (equal column-0 operand
values, or equal operand slots) and the next unconsumed choice names it; a
live matching clause collapses to the chosen branch and the choice (with its
epsilon, if any) is recorded on the output feature.  The choice iterator
advances on every match, live or not. -/
def pushFeatureStep (fv : Nat → ℚ) (f : Feature) (acc : PFAcc) (c : Clause) : PFAcc :=
  let mtch : Bool :=
    (decide (fv c.a = fv c.b) || decide (c.a = c.b)) &&
      (decide (c.op = Opcode.MAX) || decide (c.op = Opcode.MIN)) &&
      (match acc.rest with
        | [] => false
        | ch :: _ => decide (ch.id = c.id))
  let acc1 :=
    if acc.dis c.id then acc
    else
      let acc0 :=
        if mtch then
          let ch := acc.rest.headD ⟨0, 0⟩
          let out1 :=
            if f.hasEps c.id then acc.out.pushRaw ch (f.getEps c.id)
            else acc.out.pushChoiceRaw ch
          if ch.choice = 0 then
            { acc with dis := upd acc.dis c.a false, rmp := upd acc.rmp c.id c.a,
                       out := out1 }
          else
            { acc with dis := upd acc.dis c.b false, rmp := upd acc.rmp c.id c.b,
                       out := out1 }
        else acc
      if acc0.rmp c.id = 0 then
        { acc0 with dis := upd (upd acc0.dis c.a false) c.b false }
      else
        { acc0 with dis := upd acc0.dis c.id true }
  if mtch then { acc1 with rest := acc1.rest.tail } else acc1

/-- The clause loop of `Evaluator::push(const Feature&)` over a whole tape. -/
def pushFeatureScan (fv : Nat → ℚ) (f : Feature) (τ : Tape) : PFAcc :=
  τ.t.foldl (pushFeatureStep fv f)
    ⟨fun x => if x = τ.i then false else true, fun _ => 0,
     { deriv := f.deriv, choices := [], epsilons := [] }, f.choices⟩

/-- `Evaluator::push(const Feature& f)`: the feature-guided collapse scan
followed by `pushTape(FEATURE)`; returns the minimized feature. -/
def pushF (s : EvalState) (f : Feature) : Feature × EvalState :=
  let acc := pushFeatureScan s.store f (currentTape s)
  (acc.out, pushTapeOp s ⟨acc.dis, acc.rmp⟩ TapeType.FEATURE)

/-- `Evaluator::isAmbiguous()`: some MIN/MAX clause of the current tape has
equal column-0 operand values. -/
def isAmbB (s : EvalState) : Bool :=
  (currentTape s).t.any
    (fun c => (decide (c.op = Opcode.MIN) || decide (c.op = Opcode.MAX)) &&
      decide (s.store c.a = s.store c.b))

/-- Componentwise negation of a 3-vector. -/
def vneg (v : Vec3) : Vec3 := (-v.1, -v.2.1, -v.2.2)

/-- Componentwise subtraction of 3-vectors. -/
def vsub (v w : Vec3) : Vec3 := (v.1 - w.1, v.2.1 - w.2.1, v.2.2 - w.2.2)

/-- The reverse scan of `featuresAt`'s worklist body: walk the pushed tape
from the bottom up looking for the first ambiguous MIN/MAX clause, spawning
successor features (branch 0 for a collapsed self-selection; otherwise each
feasible branch, constrained by the epsilon direction).  Returns the spawned
successors, `[]` when no ambiguity was found. -/
def scanAmbig (compat : List Vec3 → Vec3 → Bool) (s : EvalState) (f : Feature) :
    List Clause → List Feature
  | [] => []
  | c :: rest =>
    if c.op = Opcode.MIN ∨ c.op = Opcode.MAX then
      if c.a = c.b then [f.pushChoiceRaw ⟨c.id, 0⟩]
      else if s.store c.a = s.store c.b then
        let lhs : Vec3 := (s.dxs c.a, s.dys c.a, s.dzs c.a)
        let rhs : Vec3 := (s.dxs c.b, s.dys c.b, s.dzs c.b)
        let eps := if c.op = Opcode.MIN then vsub rhs lhs else vsub lhs rhs
        let cands :=
          (match Feature.push compat f eps ⟨c.id, 0⟩ with
            | some fa => [fa]
            | none => []) ++
          (match Feature.push compat f (vneg eps) ⟨c.id, 1⟩ with
            | some fb => [fb]
            | none => [])
        if cands.isEmpty then scanAmbig compat s f rest else cands
      else scanAmbig compat s f rest
    else scanAmbig compat s f rest

/-- The worklist loop of `Evaluator::featuresAt`, with explicit fuel: pop a
feature, push into it (building a `FEATURE` tape), run `derivs(1)`, scan the
new tape bottom-up for the first ambiguity; spawned successors go back on
the worklist, otherwise the (deduplicated) finished feature is recorded;
the feature tape is popped before the next iteration. -/
def faLoop (T : Transc) (compat : List Vec3 → Vec3 → Bool) :
    Nat → List Feature → List Feature → List (List Choice) → EvalState →
      Option (List Feature × EvalState)
  | 0, _, _, _, _ => none
  | _ + 1, [], done, _, s => some (done, s)
  | fuel + 1, f :: rest, done, seen, s =>
    let pf := pushF s f
    let dr := derivsApi T pf.2
    let spawned := scanAmbig compat dr.2 pf.1 ((currentTape dr.2).t.reverse)
    let s3 := popOp dr.2
    if spawned.isEmpty then
      let f2 := { pf.1 with deriv := (dr.1.dx, dr.1.dy, dr.1.dz) }
      if f2.choices ∈ seen then faLoop T compat fuel rest done seen s3
      else faLoop T compat fuel rest (done ++ [f2]) (f2.choices :: seen) s3
    else faLoop T compat fuel (rest ++ spawned) done seen s3

/-- `Evaluator::featuresAt(p)`: specialize at `p`, run the worklist loop from
the empty feature, then pop the specialization tape.  `none` means the fuel
bound was hit before the worklist drained. -/
def featuresAt (T : Transc) (compat : List Vec3 → Vec3 → Bool) (fuel : Nat)
    (s : EvalState) (p : Vec3) : Option (List Feature × EvalState) :=
  match faLoop T compat fuel [⟨(0, 0, 0), [], []⟩] [] [] (specializeOp T s p) with
  | none => none
  | some r => some (r.1, popOp r.2)

/-- Squared Euclidean norm of a 3-vector (`deriv.norm() > 0` iff this is
positive). -/
def normSq (v : Vec3) : ℚ := v.1 * v.1 + v.2.1 * v.2.1 + v.2.2 * v.2.2

/-- `Evaluator::isInside(p)`: negative value means inside, positive outside;
at an exact zero, a non-ambiguous point is classified by whether the spatial
gradient is nonzero; otherwise the features at `p` decide (a single feature
by its gradient norm, several by the `!(pos && !neg)` compatibility rule). -/
def isInsideFn (T : Transc) (compat : List Vec3 → Vec3 → Bool) (fuel : Nat)
    (s : EvalState) (p : Vec3) : Option (Bool × EvalState) :=
  let dr := derivsAt T s p
  if dr.1.v < 0 then some (true, dr.2)
  else if 0 < dr.1.v then some (false, dr.2)
  else if ¬ isAmbB dr.2 then
    some ((decide (dr.1.dx ≠ 0) || decide (dr.1.dy ≠ 0) || decide (dr.1.dz ≠ 0)), dr.2)
  else
    match featuresAt T compat fuel dr.2 p with
    | none => none
    | some fs =>
      if fs.1.length = 1 then
        some (decide (0 < normSq ((fs.1.headD default).deriv)), fs.2)
      else
        let pos := fs.1.any (fun f => compat (f.epsilons.map (fun e => e.2)) f.deriv)
        let neg := fs.1.any (fun f => compat (f.epsilons.map (fun e => e.2)) (vneg f.deriv))
        some (!(pos && !neg), fs.2)

/-! ## Variable state -/

/-- `Evaluator::setVar(var, value)`: look the id up in the slot-variable
bimap; if registered, write the value into that slot's value row, otherwise
do nothing. -/
def setVar (s : EvalState) (var : Nat) (value : ℚ) : EvalState :=
  match s.vars.find? (fun v => v.2 = var) with
  | some sv => { s with store := upd s.store sv.1 value }
  | none => s

/-- `Evaluator::updateVars(map)`: walk the registered variables; whenever the
map's value differs from the stored one, `setVar` it and report a change. -/
def updateVars (s : EvalState) (m : Nat → ℚ) : Bool × EvalState :=
  s.vars.foldl
    (fun acc v =>
      if m v.2 ≠ acc.2.store v.1 then (true, setVar acc.2 v.2 (m v.2)) else acc)
    (false, s)

/-! ## baseEval -/

/-- Whether a tape is an `INTERVAL` tape whose stored box contains `p`
(the walk condition of `Evaluator::baseEval`). -/
def containsB (τ : Tape) (p : Vec3) : Bool :=
  decide (τ.type = TapeType.INTERVAL) &&
    decide (τ.X.1 ≤ p.1) && decide (p.1 ≤ τ.X.2) &&
    decide (τ.Y.1 ≤ p.2.1) && decide (p.2.1 ≤ τ.Y.2) &&
    decide (τ.Z.1 ≤ p.2.2) && decide (p.2.2 ≤ τ.Z.2)

/-- The stack walk of `Evaluator::baseEval`: from the cursor toward the base,
stop at the first tape satisfying `containsB`, or at the base. -/
def baseWalk (tapes : List Tape) (p : Vec3) : Nat → Nat
  | 0 => 0
  | k + 1 => if containsB (tapes.getD (k + 1) default) p then k + 1 else baseWalk tapes p k

/-- `Evaluator::baseEval(p)`: evaluate `p` on the tape found by the stack
walk, then restore the previous cursor. -/
def baseEvalApi (T : Transc) (s : EvalState) (p : Vec3) : ℚ × EvalState :=
  let r := evalVApi T { s with cursor := baseWalk s.tapes p s.cursor } p
  (r.1, { r.2 with cursor := s.cursor })

/-! ## Concrete instances used by witnesses -/

/-- A concrete instantiation of the abstracted numeric primitives (all
constantly zero); the claims proved below never depend on their values. -/
def T0 : Transc :=
  ⟨fun _ => 0, fun _ => 0, fun _ => 0, fun _ => 0, fun _ => 0, fun _ => 0,
   fun _ => 0, fun _ => 0, fun _ _ => 0, fun _ _ => 0, fun _ _ _ => (0, 0)⟩

/-! ## The MOD value kernel (claim C4) -/

/-- The kernel's MOD result is the floored modulus whenever the second
operand is positive. -/
theorem modValue_eq_floored (a b : ℚ) (hb : 0 < b) :
    modValue a b = a - b * (⌊a / b⌋ : ℚ) := by
  have hbne : b ≠ 0 := ne_of_gt hb
  have hab : b * (a / b) = a := by
    rw [mul_comm, div_mul_cancel₀ a hbne]
  have hfra : b * Int.fract (a / b) = a - b * (⌊a / b⌋ : ℚ) := by
    rw [Int.fract, mul_sub, hab]
  simp only [modValue, fmodLoop]
  by_cases h : 0 ≤ a / b
  · have hfm : fmodQ a b = a - b * (⌊a / b⌋ : ℚ) := by
      rw [fmodQ, truncQ, if_pos h]
    have hnn : 0 ≤ fmodQ a b := by
      rw [hfm, ← hfra]
      exact mul_nonneg (le_of_lt hb) (Int.fract_nonneg _)
    rw [if_neg (not_lt.mpr hnn), hfm]
  · have hfl : fmodQ a b = a - b * (⌈a / b⌉ : ℚ) := by
      rw [fmodQ, truncQ, if_neg h]
    by_cases hz : Int.fract (a / b) = 0
    · have hq : a / b = ((⌊a / b⌋ : ℤ) : ℚ) := by
        rw [Int.fract] at hz
        linarith
      have hceil : (⌈a / b⌉ : ℤ) = ⌊a / b⌋ := by
        conv_lhs => rw [hq]
        exact Int.ceil_intCast _
      have hfz : fmodQ a b = 0 := by
        rw [hfl, hceil, ← hfra, hz, mul_zero]
      rw [hfz, if_neg (by norm_num), ← hfra, hz, mul_zero]
    · have hflt : (⌊a / b⌋ : ℚ) < a / b := by
        rcases lt_or_eq_of_le (Int.floor_le (a / b)) with hlt | heq
        · exact hlt
        · exact absurd (by rw [Int.fract]; linarith) hz
      have hceil : (⌈a / b⌉ : ℤ) = ⌊a / b⌋ + 1 := by
        rw [Int.ceil_eq_iff]
        refine ⟨?_, ?_⟩
        · push_cast
          linarith
        · push_cast
          linarith [le_of_lt (Int.lt_floor_add_one (a / b))]
      have hsplit : a - b * (((⌊a / b⌋ : ℤ) : ℚ) + 1) = (a - b * (⌊a / b⌋ : ℚ)) - b := by
        ring
      have hneg : fmodQ a b < 0 := by
        have h2 : b * Int.fract (a / b) < b * 1 :=
          mul_lt_mul_of_pos_left (Int.fract_lt_one _) hb
        rw [hfl, hceil]
        push_cast
        rw [hsplit]
        linarith [hfra]
      rw [if_pos hneg, hfl, hceil]
      push_cast
      ring

/-- Counterexample to claim C4 as stated: at `a = 1`, `b = -2` the value
kernel's MOD clause returns `fmod(1, -2) = 1` (already non-negative, so the
while loop never runs), but the floored modulus `1 - (-2)·⌊1/(-2)⌋` is `-1`. -/
theorem claim4_counterexample :
    evalClauseValue T0 Opcode.MOD 1 (-2) = 1 ∧
      (1 : ℚ) - (-2) * (⌊(1 : ℚ) / (-2)⌋ : ℚ) = -1 ∧
      evalClauseValue T0 Opcode.MOD 1 (-2) ≠
        (1 : ℚ) - (-2) * (⌊(1 : ℚ) / (-2)⌋ : ℚ) := by
  have hceil : (⌈(1 : ℚ) / (-2)⌉ : ℤ) = 0 := by
    rw [Int.ceil_eq_iff]
    constructor <;> norm_num
  have h1 : evalClauseValue T0 Opcode.MOD 1 (-2) = 1 := by
    have hfm : fmodQ 1 (-2) = 1 := by
      rw [fmodQ, truncQ, if_neg (by norm_num), hceil]
      norm_num
    simp only [evalClauseValue, modValue, fmodLoop, hfm]
    norm_num
  have h2 : (1 : ℚ) - (-2) * (⌊(1 : ℚ) / (-2)⌋ : ℚ) = -1 := by norm_num
  exact ⟨h1, h2, by rw [h1, h2]; norm_num⟩

/-- Claim C4, amended: in the forward value kernel, for every MOD clause
whose second operand is positive, the result is the floored modulus of the
operands — `fmod(a, b)` with `b` added until the result is non-negative,
which equals `a - b·⌊a/b⌋`. -/
theorem claim4_mod_floored (T : Transc) (a b : ℚ) (hb : 0 < b) :
    evalClauseValue T Opcode.MOD a b = a - b * (⌊a / b⌋ : ℚ) :=
  modValue_eq_floored a b hb

/-- Witness for `claim4_mod_floored` at `a = -3`, `b = 2` (the loop body runs
once: `fmod(-3, 2) = -1`, plus `2` gives `1`). -/
theorem claim4_mod_floored_witness :
    (0 : ℚ) < 2 ∧
      evalClauseValue T0 Opcode.MOD (-3) 2 = (-3 : ℚ) - 2 * (⌊(-3 : ℚ) / 2⌋ : ℚ) ∧
      evalClauseValue T0 Opcode.MOD (-3) 2 = 1 := by
  have hmain := claim4_mod_floored T0 (-3) 2 (by norm_num)
  refine ⟨by norm_num, hmain, ?_⟩
  rw [hmain]
  norm_num

/-! ## The interval-push collapse logic (claim C1) -/

/-- Claim C1: in `push()`, a clause that is still live when the scan reaches
it behaves as follows — a MAX whose first operand's interval lies strictly
above the second's collapses to `a` (marking `a` live, remapping the
clause's slot to `a`, and disabling the clause); symmetrically for the other
operand; a MIN does the same with the branch choices swapped; and whenever
no collapse happens, both operands become live (and the clause stays live,
its slot unremapped).  Hypotheses: the clause is live with no pending remap
of its slot and — only when it is a MIN or MAX, i.e. binary — its operand
intervals are proper and its operand slots are nonzero and distinct from
the destination slot, as in every tape the builder produces.  The
no-collapse conjunct needs no slot hypotheses at all, so it covers unary
clauses too, whose `b` is the dummy slot 0 (the builder maps the null rhs
to slot 0). -/
theorem claim1_push_step (iv : Nat → Iv) (st : PushState) (c : Clause)
    (hlive : st.dis c.id = false)
    (hrmp : st.rmp c.id = 0)
    (hbin : c.op = Opcode.MAX ∨ c.op = Opcode.MIN →
      ((iv c.a).1 ≤ (iv c.a).2 ∧ (iv c.b).1 ≤ (iv c.b).2) ∧
        (c.a ≠ 0 ∧ c.b ≠ 0) ∧ (c.a ≠ c.id ∧ c.b ≠ c.id)) :
    (c.op = Opcode.MAX → (iv c.a).1 > (iv c.b).2 →
      (pushStep iv st c).dis c.a = false ∧ (pushStep iv st c).rmp c.id = c.a ∧
        (pushStep iv st c).dis c.id = true) ∧
    (c.op = Opcode.MAX → (iv c.b).1 > (iv c.a).2 →
      (pushStep iv st c).dis c.b = false ∧ (pushStep iv st c).rmp c.id = c.b ∧
        (pushStep iv st c).dis c.id = true) ∧
    (c.op = Opcode.MIN → (iv c.a).1 > (iv c.b).2 →
      (pushStep iv st c).dis c.b = false ∧ (pushStep iv st c).rmp c.id = c.b ∧
        (pushStep iv st c).dis c.id = true) ∧
    (c.op = Opcode.MIN → (iv c.b).1 > (iv c.a).2 →
      (pushStep iv st c).dis c.a = false ∧ (pushStep iv st c).rmp c.id = c.a ∧
        (pushStep iv st c).dis c.id = true) ∧
    (((c.op ≠ Opcode.MAX ∧ c.op ≠ Opcode.MIN) ∨
        (¬ (iv c.a).1 > (iv c.b).2 ∧ ¬ (iv c.b).1 > (iv c.a).2)) →
      (pushStep iv st c).dis c.a = false ∧ (pushStep iv st c).dis c.b = false ∧
        (pushStep iv st c).dis c.id = false ∧ (pushStep iv st c).rmp c.id = 0) := by
  refine ⟨?_, ?_, ?_, ?_, ?_⟩
  · intro hop hgt
    obtain ⟨⟨hpa, hpb⟩, ⟨ha0, hb0⟩, ⟨haid, hbid⟩⟩ := hbin (Or.inl hop)
    simp [pushStep, upd, hlive, hop, hgt, ha0, haid]
  · intro hop hgt
    obtain ⟨⟨hpa, hpb⟩, ⟨ha0, hb0⟩, ⟨haid, hbid⟩⟩ := hbin (Or.inl hop)
    have hn1 : ¬ (iv c.a).1 > (iv c.b).2 := by
      push_neg
      calc (iv c.a).1 ≤ (iv c.a).2 := hpa
      _ ≤ (iv c.b).1 := le_of_lt hgt
      _ ≤ (iv c.b).2 := hpb
    simp [pushStep, upd, hlive, hop, hgt, hn1, hb0, hbid]
  · intro hop hgt
    obtain ⟨⟨hpa, hpb⟩, ⟨ha0, hb0⟩, ⟨haid, hbid⟩⟩ := hbin (Or.inr hop)
    simp [pushStep, upd, hlive, hop, hgt, hb0, hbid]
  · intro hop hgt
    obtain ⟨⟨hpa, hpb⟩, ⟨ha0, hb0⟩, ⟨haid, hbid⟩⟩ := hbin (Or.inr hop)
    have hn1 : ¬ (iv c.a).1 > (iv c.b).2 := by
      push_neg
      calc (iv c.a).1 ≤ (iv c.a).2 := hpa
      _ ≤ (iv c.b).1 := le_of_lt hgt
      _ ≤ (iv c.b).2 := hpb
    simp [pushStep, upd, hlive, hop, hgt, hn1, ha0, haid]
  · intro h
    have hshape : pushStep iv st c =
        ⟨upd (upd st.dis c.a false) c.b false, st.rmp⟩ := by
      rcases h with hother | hcmp
      · by_cases hM : c.op = Opcode.MAX
        · exact absurd hM hother.1
        · by_cases hm : c.op = Opcode.MIN
          · exact absurd hm hother.2
          · simp [pushStep, hlive, hM, hm, hrmp]
      · by_cases hM : c.op = Opcode.MAX
        · simp [pushStep, hlive, hM, hcmp.1, hcmp.2, hrmp]
        · by_cases hm : c.op = Opcode.MIN
          · simp [pushStep, hlive, hM, hm, hcmp.1, hcmp.2, hrmp]
          · simp [pushStep, hlive, hM, hm, hrmp]
    rw [hshape]
    refine ⟨?_, ?_, ?_, hrmp⟩
    · show upd (upd st.dis c.a false) c.b false c.a = false
      rw [upd, upd]
      by_cases hab : c.a = c.b
      · rw [if_pos hab]
      · rw [if_neg hab, if_pos rfl]
    · show upd (upd st.dis c.a false) c.b false c.b = false
      rw [upd, if_pos rfl]
    · show upd (upd st.dis c.a false) c.b false c.id = false
      rw [upd, upd]
      by_cases hib : c.id = c.b
      · rw [if_pos hib]
      · rw [if_neg hib]
        by_cases hia : c.id = c.a
        · rw [if_pos hia]
        · rw [if_neg hia]
          exact hlive

/-- Interval data used by the claim C1 witness. -/
def iv0 : Nat → Iv := fun x => if x = 3 then (5, 6) else if x = 4 then (1, 2) else (0, 0)

/-- Scratch state used by the claim C1 witness: only the root (slot 1) live. -/
def st0 : PushState := ⟨fun x => if x = 1 then false else true, fun _ => 0⟩

/-- The binary clause of the claim C1 witness: `max` of slots 3 and 4 into
slot 1. -/
def c0 : Clause := ⟨Opcode.MAX, 1, 3, 4⟩

/-- The unary clause of the claim C1 witness: `neg` of slot 3 into slot 1,
with the dummy slot 0 as its unused second operand. -/
def cu : Clause := ⟨Opcode.NEG, 1, 3, 0⟩

/-- Witness for `claim1_push_step`: on `max(slot 3, slot 4)` with
`I[3] = [5,6]` strictly above `I[4] = [1,2]`, the clause collapses to
operand 3; and on the unary `neg(slot 3)` no collapse happens, so both its
operand and the dummy slot 0 become live while the clause stays live and
unremapped. -/
theorem claim1_push_step_witness :
    ((pushStep iv0 st0 c0).dis 3 = false ∧ (pushStep iv0 st0 c0).rmp 1 = 3 ∧
      (pushStep iv0 st0 c0).dis 1 = true) ∧
    ((pushStep iv0 st0 cu).dis 3 = false ∧ (pushStep iv0 st0 cu).dis 0 = false ∧
      (pushStep iv0 st0 cu).dis 1 = false ∧ (pushStep iv0 st0 cu).rmp 1 = 0) := by
  constructor
  · have h := claim1_push_step iv0 st0 c0 rfl rfl
      (fun _ => by
        refine ⟨⟨?_, ?_⟩, ⟨?_, ?_⟩, ⟨?_, ?_⟩⟩ <;> norm_num [iv0, c0])
    exact h.1 rfl (by norm_num [iv0, c0])
  · have h := claim1_push_step iv0 st0 cu rfl rfl (fun hc => by simp [cu] at hc)
    exact h.2.2.2.2 (Or.inl ⟨by simp [cu], by simp [cu]⟩)

/-! ## pushTape (claim C2) -/

/-- Fuel `n` suffices for the remap chase to reach a fixed point when every
remap entry points strictly upward and entries at or above `n` are clear:
at most `n - x` steps can be taken from slot `x`. -/
lemma chase_fix (rmp : Nat → Nat) (n : Nat)
    (hmono : ∀ x, rmp x ≠ 0 → x < rmp x)
    (hbound : ∀ x, n ≤ x → rmp x = 0) :
    ∀ fuel x, n ≤ x + fuel → rmp (chase rmp fuel x) = 0 := by
  intro fuel
  induction fuel with
  | zero =>
    intro x hx
    exact hbound x (by omega)
  | succ m ih =>
    intro x hx
    rw [chase]
    by_cases h0 : rmp x = 0
    · rw [if_pos h0]
      exact h0
    · rw [if_neg h0]
      exact ih (rmp x) (by have := hmono x h0; omega)

/-- The conditional-append fold of `pushTapeClauses` is a `filterMap`. -/
lemma pushTapeClauses_eq_filterMap (n : Nat) (st : PushState) (prev : List Clause) :
    pushTapeClauses n st prev = prev.filterMap
      (fun c => if st.dis c.id then none
        else some ⟨c.op, c.id, chase st.rmp n c.a, chase st.rmp n c.b⟩) := by
  have aux : ∀ (l : List Clause) (acc : List Clause),
      l.foldl (fun acc c => if st.dis c.id then acc
        else acc ++ [⟨c.op, c.id, chase st.rmp n c.a, chase st.rmp n c.b⟩]) acc =
      acc ++ l.filterMap (fun c => if st.dis c.id then none
        else some ⟨c.op, c.id, chase st.rmp n c.a, chase st.rmp n c.b⟩) := by
    intro l
    induction l with
    | nil => intro acc; simp
    | cons c rest ih =>
      intro acc
      by_cases h : st.dis c.id
      · simp [List.foldl_cons, List.filterMap_cons, h, ih]
      · simp [List.foldl_cons, List.filterMap_cons, h, ih]
  exact aux prev []

/-- A `filterMap` that never changes the `(op, id)` projection yields a
sublist of projections. -/
lemma filterMap_proj_sublist (st : PushState) (n : Nat) (l : List Clause) :
    List.Sublist
      ((l.filterMap (fun c => if st.dis c.id then none
        else some (⟨c.op, c.id, chase st.rmp n c.a, chase st.rmp n c.b⟩ : Clause))).map
          (fun c => (c.op, c.id)))
      (l.map (fun c => (c.op, c.id))) := by
  induction l with
  | nil => simp
  | cons c rest ih =>
    by_cases h : st.dis c.id
    · rw [List.filterMap_cons, if_pos h, List.map_cons]
      exact ih.cons _
    · rw [List.filterMap_cons, if_neg h, List.map_cons, List.map_cons]
      exact ih.cons₂ _

/-- Reading back the tape just written by `setOrAppend` at slot `k`. -/
lemma setOrAppend_getD_eq (l : List Tape) (k : Nat) (τ : Tape) (hk : k ≤ l.length) :
    (setOrAppend l k τ).getD k default = τ := by
  rw [setOrAppend]
  by_cases h : k < l.length
  · rw [if_pos h, List.getD_eq_getElem?_getD, List.getElem?_set_self (by simpa using h)]
    rfl
  · have hk' : k = l.length := by omega
    rw [if_neg h, List.getD_eq_getElem?_getD, hk', List.getElem?_append_right (le_refl _)]
    simp

/-- `setOrAppend` above the cursor leaves lower stack slots unchanged. -/
lemma setOrAppend_getD_ne (l : List Tape) (k j : Nat) (τ : Tape) (hj : j ≠ k)
    (hk : k ≤ l.length) :
    (setOrAppend l k τ).getD j default = l.getD j default := by
  rw [setOrAppend]
  by_cases h : k < l.length
  · rw [if_pos h, List.getD_eq_getElem?_getD, List.getElem?_set_ne (Ne.symm hj),
      List.getD_eq_getElem?_getD]
  · rw [if_neg h]
    by_cases hjl : j < l.length
    · rw [List.getD_eq_getElem?_getD, List.getElem?_append, if_pos hjl,
        List.getD_eq_getElem?_getD]
    · rw [List.getD_eq_getElem?_getD, List.getD_eq_getElem?_getD]
      have h1 : l[j]? = none := List.getElem?_eq_none (by omega)
      have h2 : (l ++ [τ])[j]? = none := by
        apply List.getElem?_eq_none
        simp only [List.length_append, List.length_cons, List.length_nil]
        omega
      rw [h1, h2]

/-- The tape `pushTape` materializes above the cursor. -/
lemma currentTape_pushTapeOp (s : EvalState) (st : PushState) (ty : TapeType)
    (hv : s.cursor < s.tapes.length) :
    currentTape (pushTapeOp s st ty) =
      { t := pushTapeClauses s.N st (currentTape s).t,
        i := chase st.rmp s.N (currentTape s).i, type := ty,
        X := (s.tapes.getD (s.cursor + 1) default).X,
        Y := (s.tapes.getD (s.cursor + 1) default).Y,
        Z := (s.tapes.getD (s.cursor + 1) default).Z } := by
  show (setOrAppend s.tapes (s.cursor + 1) _).getD (s.cursor + 1) default = _
  rw [setOrAppend_getD_eq _ _ _ (by omega)]

/-- Claim C2: for every push (interval, feature and specialization pushes all
materialize through `pushTape`), the new tape's `(op, id)` clause projection
is a sublist of the parent's (a subsequence in the same relative order);
every retained clause appears with its operands rewritten to the remap fixed
point (and those rewritten operands are indeed fixed points of the remap
table); the new root is the remap fixed point of the parent's root; and the
new tape is no longer than the parent.  Hypotheses: a valid cursor, and that
the remap scratch table points strictly upward with no entries at or beyond
the arena size `N` — as holds for the tables `push`, `push(Feature)` and
`specialize` build, since they only map a clause's slot to one of its
operand slots. -/
theorem claim2_pushTape (s : EvalState) (st : PushState) (ty : TapeType)
    (hv : s.cursor < s.tapes.length)
    (hmono : ∀ x, st.rmp x ≠ 0 → x < st.rmp x)
    (hbound : ∀ x, s.N ≤ x → st.rmp x = 0) :
    List.Sublist
        ((currentTape (pushTapeOp s st ty)).t.map (fun c => (c.op, c.id)))
        ((currentTape s).t.map (fun c => (c.op, c.id))) ∧
    (∀ c ∈ (currentTape s).t, st.dis c.id = false →
      (⟨c.op, c.id, chase st.rmp s.N c.a, chase st.rmp s.N c.b⟩ : Clause) ∈
        (currentTape (pushTapeOp s st ty)).t) ∧
    (∀ c' ∈ (currentTape (pushTapeOp s st ty)).t,
      st.rmp c'.a = 0 ∧ st.rmp c'.b = 0) ∧
    (currentTape (pushTapeOp s st ty)).i = chase st.rmp s.N (currentTape s).i ∧
    st.rmp (currentTape (pushTapeOp s st ty)).i = 0 ∧
    (currentTape (pushTapeOp s st ty)).t.length ≤ (currentTape s).t.length := by
  have hfix : ∀ x, st.rmp (chase st.rmp s.N x) = 0 := by
    intro x
    exact chase_fix st.rmp s.N hmono hbound s.N x (by omega)
  rw [currentTape_pushTapeOp s st ty hv]
  simp only [pushTapeClauses_eq_filterMap]
  refine ⟨filterMap_proj_sublist st s.N _, ?_, ?_, trivial, hfix _, ?_⟩
  · intro c hc hdis
    exact List.mem_filterMap.mpr ⟨c, hc, by rw [hdis]; simp⟩
  · intro c' hc'
    rcases List.mem_filterMap.mp hc' with ⟨c, _, hcc⟩
    by_cases h : st.dis c.id
    · rw [if_pos h] at hcc
      exact absurd hcc (by simp)
    · rw [if_neg h] at hcc
      have := Option.some_injective _ hcc
      rw [← this]
      exact ⟨hfix _, hfix _⟩
  · exact List.length_filterMap_le _ _

/-- The parent tape of the claim C2 witness: `max(slot 3, slot 4)` at the
root over an `add` producing slot 3. -/
def tape2 : Tape :=
  ⟨[⟨Opcode.MAX, 1, 3, 4⟩, ⟨Opcode.ADD, 3, 5, 6⟩], 1, TapeType.ORIGINAL,
   (0, 0), (0, 0), (0, 0)⟩

/-- The evaluator state of the claim C2 witness. -/
def s2 : EvalState :=
  ⟨[tape2], 0, fun _ => 0, fun _ => 0, fun _ => 0, fun _ => 0, fun _ => (0, 0),
   fun _ => [], [], 5, 6, 7, 8⟩

/-- The scratch state of the claim C2 witness: the MAX clause collapsed to
operand 3. -/
def st2 : PushState :=
  ⟨fun x => if x = 3 ∨ x = 5 ∨ x = 6 then false else true,
   fun x => if x = 1 then 3 else 0⟩

/-- Witness for `claim2_pushTape`: the retained `add` clause survives into
the pushed tape with fixed-point operands, and the root remaps from 1 to 3. -/
theorem claim2_pushTape_witness :
    (⟨Opcode.ADD, 3, 5, 6⟩ : Clause) ∈
        (currentTape (pushTapeOp s2 st2 TapeType.INTERVAL)).t ∧
      (currentTape (pushTapeOp s2 st2 TapeType.INTERVAL)).i = 3 := by
  have hmono : ∀ x, st2.rmp x ≠ 0 → x < st2.rmp x := by
    intro x hx
    by_cases h1 : x = 1
    · subst h1; norm_num [st2]
    · simp [st2, h1] at hx
  have hbound : ∀ x, s2.N ≤ x → st2.rmp x = 0 := by
    intro x hx
    have h1 : x ≠ 1 := by
      simp only [s2] at hx
      omega
    simp [st2, h1]
  have h := claim2_pushTape s2 st2 TapeType.INTERVAL (by norm_num [s2]) hmono hbound
  constructor
  · have hm := h.2.1 ⟨Opcode.ADD, 3, 5, 6⟩ (by simp [currentTape, s2, tape2])
      (by norm_num [st2])
    simpa [chase, st2, s2] using hm
  · rw [h.2.2.2.1]
    norm_num [currentTape, s2, tape2, chase, st2]

/-! ## Variable state (claims C8, C9) -/

/-- Claim C9: `setVar` on an id that is not a registered free variable is a
no-op — the whole evaluator state (in particular the entire result arena)
is returned unchanged. -/
theorem claim9_setVar_unregistered (s : EvalState) (v : Nat) (x : ℚ)
    (h : ∀ sv ∈ s.vars, sv.2 ≠ v) :
    setVar s v x = s := by
  rw [setVar]
  have hf : s.vars.find? (fun sv => sv.2 = v) = none := by
    rw [List.find?_eq_none]
    intro sv hsv
    simp [h sv hsv]
  rw [hf]

/-- The evaluator state of the variable-state witnesses: one registered
variable, id 10 in slot 2, with stored value 7. -/
def s8 : EvalState :=
  ⟨[default], 0, fun x => if x = 2 then 7 else 0, fun _ => 0, fun _ => 0,
   fun _ => 0, fun _ => (0, 0), fun _ => [], [(2, 10)], 3, 4, 5, 6⟩

/-- Witness for `claim9_setVar_unregistered`: id 99 is not registered. -/
theorem claim9_setVar_unregistered_witness : setVar s8 99 5 = s8 :=
  claim9_setVar_unregistered s8 99 5 (by intro sv hsv; simp [s8] at hsv; simp [hsv])

/-- `setVar` never changes the registered-variable table. -/
lemma setVar_vars (s : EvalState) (v : Nat) (x : ℚ) : (setVar s v x).vars = s.vars := by
  rw [setVar]
  cases hfind : s.vars.find? (fun sv => sv.2 = v) <;> rfl

/-- The `updateVars` fold leaves the accumulator untouched when the map
agrees with every stored value. -/
lemma updateVars_fold_fixed (m : Nat → ℚ) (st : EvalState) :
    ∀ l : List (Nat × Nat), (∀ sv ∈ l, m sv.2 = st.store sv.1) →
      l.foldl
        (fun acc v =>
          if m v.2 ≠ acc.2.store v.1 then (true, setVar acc.2 v.2 (m v.2)) else acc)
        (false, st) = (false, st) := by
  intro l
  induction l with
  | nil => intro _; rfl
  | cons sv rest ih =>
    intro h
    rw [List.foldl_cons, if_neg (by simp [h sv (List.mem_cons_self sv rest)])]
    exact ih (fun sv' hsv' => h sv' (List.mem_cons_of_mem _ hsv'))

/-- Claim C8: for a registered variable `v` whose stored value (in every slot
registered to it) is `x`, `setVar(v, x)` followed by `updateVars` with a map
sending every registered variable to its current value reports no change and
leaves every registered variable's stored value unchanged. -/
theorem claim8_setVar_updateVars (s : EvalState) (v : Nat) (x : ℚ) (m : Nat → ℚ)
    (hx : ∀ sv ∈ s.vars, sv.2 = v → s.store sv.1 = x)
    (hm : ∀ sv ∈ s.vars, m sv.2 = s.store sv.1) :
    updateVars (setVar s v x) m = (false, setVar s v x) ∧
      ∀ sv ∈ s.vars, (setVar s v x).store sv.1 = s.store sv.1 := by
  have hstore : ∀ sv ∈ s.vars, (setVar s v x).store sv.1 = s.store sv.1 := by
    intro sv hsv
    rw [setVar]
    cases hfind : s.vars.find? (fun sv => sv.2 = v) with
    | none => rfl
    | some sv0 =>
      have hmem : sv0 ∈ s.vars := List.mem_of_find?_eq_some hfind
      have hpred : sv0.2 = v := by
        have := List.find?_some hfind
        simpa using this
      have hval : s.store sv0.1 = x := hx sv0 hmem hpred
      show upd s.store sv0.1 x sv.1 = s.store sv.1
      rw [upd]
      by_cases hsl : sv.1 = sv0.1
      · rw [if_pos hsl, hsl, hval]
      · rw [if_neg hsl]
  refine ⟨?_, hstore⟩
  rw [updateVars, setVar_vars]
  exact updateVars_fold_fixed m (setVar s v x) s.vars
    (fun sv hsv => by rw [hm sv hsv, hstore sv hsv])

/-- The identity variable map of the claim C8 witness. -/
def m8 : Nat → ℚ := fun i => if i = 10 then 7 else 0

/-- Witness for `claim8_setVar_updateVars` on the one-variable state `s8`:
re-setting variable 10 to its current value 7 and batch-updating with the
current values reports no change. -/
theorem claim8_setVar_updateVars_witness :
    updateVars (setVar s8 10 7) m8 = (false, setVar s8 10 7) ∧
      ∀ sv ∈ s8.vars, (setVar s8 10 7).store sv.1 = s8.store sv.1 :=
  claim8_setVar_updateVars s8 10 7 m8
    (by intro sv hsv _; simp [s8] at hsv; simp [s8, hsv])
    (by intro sv hsv; simp [s8] at hsv; simp [s8, m8, hsv])

/-! ## baseEval (claim C5) -/

/-- The stack walk never ascends. -/
lemma baseWalk_le (tapes : List Tape) (p : Vec3) : ∀ k, baseWalk tapes p k ≤ k := by
  intro k
  induction k with
  | zero => rw [baseWalk]
  | succ n ih =>
    rw [baseWalk]
    by_cases h : containsB (tapes.getD (n + 1) default) p
    · rw [if_pos h]
    · rw [if_neg h]
      omega

/-- Everything strictly between the walk's result and the starting cursor
fails the containment test: the walk stops at the shallowest qualifying
tape (the one nearest the current cursor). -/
lemma baseWalk_max (tapes : List Tape) (p : Vec3) :
    ∀ k j, baseWalk tapes p k < j → j ≤ k →
      containsB (tapes.getD j default) p = false := by
  intro k
  induction k with
  | zero =>
    intro j h1 h2
    rw [baseWalk] at h1
    omega
  | succ n ih =>
    intro j h1 h2
    rw [baseWalk] at h1
    by_cases h : containsB (tapes.getD (n + 1) default) p
    · rw [if_pos h] at h1
      omega
    · rw [if_neg h] at h1
      by_cases hj : j = n + 1
      · rw [hj]
        exact Bool.eq_false_iff.mpr h
      · exact ih j h1 (by omega)

/-- A nonzero walk result is a tape that passes the containment test. -/
lemma baseWalk_hit (tapes : List Tape) (p : Vec3) :
    ∀ k, baseWalk tapes p k ≠ 0 →
      containsB (tapes.getD (baseWalk tapes p k) default) p = true := by
  intro k
  induction k with
  | zero =>
    intro h
    rw [baseWalk] at h
    omega
  | succ n ih =>
    intro h
    rw [baseWalk]
    by_cases hc : containsB (tapes.getD (n + 1) default) p
    · rw [if_pos hc]
      exact hc
    · rw [baseWalk, if_neg hc] at h
      rw [if_neg hc]
      exact ih h

/-- Claim C5: `baseEval(p)` restores the current-tape cursor, and the value
it returns is `eval(p)` run with the cursor moved to `baseWalk`'s result —
which is at or below the original cursor, is the deepest-indexed (i.e.
shallowest, nearest the cursor) stack entry at or below the cursor that is
an INTERVAL tape whose stored box contains `p` (everything strictly above it
up to the cursor fails that test), and falls back to the base tape (index 0)
when no tape in that range contains `p`. -/
theorem claim5_baseEval (T : Transc) (s : EvalState) (p : Vec3) :
    (baseEvalApi T s p).2.cursor = s.cursor ∧
    (baseEvalApi T s p).1 =
      (evalVApi T { s with cursor := baseWalk s.tapes p s.cursor } p).1 ∧
    baseWalk s.tapes p s.cursor ≤ s.cursor ∧
    (∀ j, baseWalk s.tapes p s.cursor < j → j ≤ s.cursor →
      containsB (s.tapes.getD j default) p = false) ∧
    (baseWalk s.tapes p s.cursor ≠ 0 →
      containsB (s.tapes.getD (baseWalk s.tapes p s.cursor) default) p = true) :=
  ⟨rfl, rfl, baseWalk_le s.tapes p s.cursor, baseWalk_max s.tapes p s.cursor,
   baseWalk_hit s.tapes p s.cursor⟩

/-- An INTERVAL tape with box `[0,1]³`, used by the claim C5 witness. -/
def tape5 : Tape := ⟨[], 1, TapeType.INTERVAL, (0, 1), (0, 1), (0, 1)⟩

/-- The two-tape stack of the claim C5 witness. -/
def s5 : EvalState :=
  ⟨[default, tape5], 1, fun _ => 0, fun _ => 0, fun _ => 0, fun _ => 0,
   fun _ => (0, 0), fun _ => [], [], 2, 3, 4, 5⟩

/-- Witness for `claim5_baseEval` at a point inside the pushed tape's box:
the cursor is restored. -/
theorem claim5_baseEval_witness :
    (baseEvalApi T0 s5 ((1 : ℚ) / 2, (1 : ℚ) / 2, (1 : ℚ) / 2)).2.cursor = s5.cursor :=
  (claim5_baseEval T0 s5 ((1 : ℚ) / 2, (1 : ℚ) / 2, (1 : ℚ) / 2)).1

/-! ## push + pop is the identity (claim C3) -/

/-- The destination slots of a clause list. -/
def idList (cs : List Clause) : List Nat := cs.map (fun c => c.id)

/-- A clause list is well-ordered (the tape invariant: reverse topological
order with SSA slots) when, walking from the root end, each clause's
operands are either defined by a clause closer to the leaf end — executed
earlier in the back-to-front sweep — or are not defined by the tape at all
(leaf slots: constants, variables, axes). -/
def woB (all : List Nat) : List Clause → Bool
  | [] => true
  | c :: rest =>
    (decide (c.a ∈ idList rest) || decide (c.a ∉ all)) &&
      ((decide (c.b ∈ idList rest) || decide (c.b ∉ all)) && woB all rest)

/-- The value sweep only writes destination slots of the tape. -/
lemma sweep_writes (T : Transc) :
    ∀ (cs : List Clause) (m : Nat → ℚ) (x : Nat),
      x ∉ idList cs → valuesSweepL T cs m x = m x := by
  intro cs
  induction cs with
  | nil => intro m x _; rfl
  | cons c rest ih =>
    intro m x hx
    have hxc : x ≠ c.id := by
      intro h
      exact hx (by rw [idList, List.map_cons, h]; exact List.mem_cons_self _ _)
    have hxr : x ∉ idList rest := by
      intro h
      exact hx (by rw [idList, List.map_cons]; exact List.mem_cons_of_mem _ h)
    show upd (valuesSweepL T rest m) c.id _ x = m x
    rw [upd, if_neg hxc]
    exact ih m x hxr

/-- Unfolding one step of the value sweep at the root end. -/
lemma valuesSweepL_cons (T : Transc) (c : Clause) (rest : List Clause) (m : Nat → ℚ) :
    valuesSweepL T (c :: rest) m =
      upd (valuesSweepL T rest m) c.id
        (evalClauseValue T c.op (valuesSweepL T rest m c.a)
          (valuesSweepL T rest m c.b)) := rfl

/-- Two value sweeps over a well-ordered tape agree — on every tape-defined
slot and on every slot outside the disagreement set `W` — provided the
initial stores agree outside `W` and `W` only contains tape-defined slots. -/
lemma sweep_agree (T : Transc) (all W : List Nat) (hWall : ∀ x ∈ W, x ∈ all) :
    ∀ (cs : List Clause), woB all cs = true →
      ∀ (m₁ m₂ : Nat → ℚ), (∀ x, x ∉ W → m₁ x = m₂ x) →
        ∀ x, x ∈ idList cs ∨ x ∉ W →
          valuesSweepL T cs m₁ x = valuesSweepL T cs m₂ x := by
  intro cs
  induction cs with
  | nil =>
    intro _ m₁ m₂ hm x hx
    rcases hx with hx | hx
    · exact absurd hx (by simp [idList])
    · exact hm x hx
  | cons c rest ih =>
    intro hwo m₁ m₂ hm x hx
    rw [woB] at hwo
    simp only [Bool.and_eq_true, Bool.or_eq_true, decide_eq_true_eq] at hwo
    obtain ⟨hA, hB, hrest⟩ := hwo
    have hIH := ih hrest m₁ m₂ hm
    have ha : valuesSweepL T rest m₁ c.a = valuesSweepL T rest m₂ c.a := by
      apply hIH
      rcases hA with h | h
      · exact Or.inl h
      · exact Or.inr (fun hW => h (hWall _ hW))
    have hb : valuesSweepL T rest m₁ c.b = valuesSweepL T rest m₂ c.b := by
      apply hIH
      rcases hB with h | h
      · exact Or.inl h
      · exact Or.inr (fun hW => h (hWall _ hW))
    rw [valuesSweepL_cons, valuesSweepL_cons, upd, upd]
    by_cases hxc : x = c.id
    · rw [if_pos hxc, if_pos hxc, ha, hb]
    · rw [if_neg hxc, if_neg hxc]
      apply hIH
      rcases hx with hx | hx
      · rw [idList, List.map_cons] at hx
        rcases List.mem_cons.mp hx with h | h
        · exact absurd h hxc
        · exact Or.inl h
      · exact Or.inr hx

/-- Two value sweeps over a well-ordered tape agree everywhere when their
initial stores agree outside the tape's own destination slots. -/
lemma sweep_agree_all (T : Transc) (cs : List Clause)
    (hwo : woB (idList cs) cs = true) (m₁ m₂ : Nat → ℚ)
    (hm : ∀ x, x ∉ idList cs → m₁ x = m₂ x) :
    valuesSweepL T cs m₁ = valuesSweepL T cs m₂ := by
  funext x
  apply sweep_agree T (idList cs) (idList cs) (fun y hy => hy) cs hwo m₁ m₂ hm
  by_cases hx : x ∈ idList cs
  · exact Or.inl hx
  · exact Or.inr hx

/-- Popping right after a `pushTape` returns the cursor to the tape it left:
only the stack slot above the cursor was touched. -/
lemma currentTape_pop_pushTapeOp (s : EvalState) (st : PushState) (ty : TapeType)
    (hv : s.cursor < s.tapes.length) :
    currentTape (popOp (pushTapeOp s st ty)) = currentTape s := by
  show (setOrAppend s.tapes (s.cursor + 1) _).getD (s.cursor + 1 - 1) default =
    s.tapes.getD s.cursor default
  rw [Nat.add_sub_cancel]
  exact setOrAppend_getD_ne _ _ _ _ (by omega) (by omega)

/-- Reading an unrelated stack slot through `List.set`. -/
lemma set_getD_ne (l : List Tape) (k j : Nat) (τ : Tape) (hj : j ≠ k) :
    (l.set k τ).getD j default = l.getD j default := by
  rw [List.getD_eq_getElem?_getD, List.getElem?_set_ne (Ne.symm hj),
    List.getD_eq_getElem?_getD]

/-- Popping right after an interval `push()` also restores the current tape
(the box recording only rewrites the new tape above the cursor). -/
lemma currentTape_pop_pushI (s : EvalState) (hv : s.cursor < s.tapes.length) :
    currentTape (popOp (pushI s)) = currentTape s := by
  show ((setOrAppend s.tapes (s.cursor + 1) _).set (s.cursor + 1) _).getD
      (s.cursor + 1 - 1) default = s.tapes.getD s.cursor default
  rw [Nat.add_sub_cancel, set_getD_ne _ _ _ _ (by omega)]
  exact setOrAppend_getD_ne _ _ _ _ (by omega) (by omega)

/-- `eval(p)` unfolded: a value sweep over the current tape from the arena
with the point loaded into the X, Y, Z rows, read at the root. -/
lemma evalV_obs (T : Transc) (s : EvalState) (q : Vec3) :
    (evalVApi T s q).1 =
      valuesSweepL T (currentTape s).t
        (upd (upd (upd s.store s.Xid q.1) s.Yid q.2.1) s.Zid q.2.2)
        (currentTape s).i := rfl

/-- `derivs(1)` after `set(p, 0)`, unfolded. -/
lemma derivs_obs (T : Transc) (s : EvalState) (q : Vec3) :
    (derivsAt T s q).1 =
      ⟨valuesSweepL T (currentTape s).t
          (upd (upd (upd s.store s.Xid q.1) s.Yid q.2.1) s.Zid q.2.2)
          (currentTape s).i,
        (derivSweepL T (currentTape s).t
          (valuesSweepL T (currentTape s).t
            (upd (upd (upd s.store s.Xid q.1) s.Yid q.2.1) s.Zid q.2.2))
          ⟨s.dxs, s.dys, s.dzs⟩).dx (currentTape s).i,
        (derivSweepL T (currentTape s).t
          (valuesSweepL T (currentTape s).t
            (upd (upd (upd s.store s.Xid q.1) s.Yid q.2.1) s.Zid q.2.2))
          ⟨s.dxs, s.dys, s.dzs⟩).dy (currentTape s).i,
        (derivSweepL T (currentTape s).t
          (valuesSweepL T (currentTape s).t
            (upd (upd (upd s.store s.Xid q.1) s.Yid q.2.1) s.Zid q.2.2))
          ⟨s.dxs, s.dys, s.dzs⟩).dz (currentTape s).i⟩ := rfl

/-- `eval(lower, upper)` unfolded. -/
lemma evalI_obs (T : Transc) (s : EvalState) (lo hi : Vec3) :
    (evalIApi T s lo hi).1 =
      ivalSweepL T (currentTape s).t
        (upd (upd (upd s.ivals s.Xid (lo.1, hi.1)) s.Yid (lo.2.1, hi.2.1)) s.Zid
          (lo.2.2, hi.2.2))
        (currentTape s).i := rfl

/-- `gradient(p)` unfolded. -/
lemma grad_obs (T : Transc) (s : EvalState) (q : Vec3) :
    (gradientApi T s q).1 =
      s.vars.enum.map (fun iv => (iv.2.2,
        ((jacSweepL T (currentTape s).t
          (valuesSweepL T (currentTape s).t
            (upd (upd (upd s.store s.Xid q.1) s.Yid q.2.1) s.Zid q.2.2))
          s.jstore) (currentTape s).i).getD iv.1 0)) := rfl

/-- All four evaluation interfaces return the same results on two states
sharing the current tape and every arena row except possibly value rows of
slots the current tape itself defines (which the sweep overwrites before
reading, by well-ordering) or the X/Y/Z rows (which `set` overwrites). -/
lemma obs_preserved (T : Transc) (s₁ s₂ : EvalState)
    (hct : currentTape s₁ = currentTape s₂)
    (hdx : s₁.dxs = s₂.dxs) (hdy : s₁.dys = s₂.dys) (hdz : s₁.dzs = s₂.dzs)
    (hiv : s₁.ivals = s₂.ivals) (hj : s₁.jstore = s₂.jstore)
    (hvars : s₁.vars = s₂.vars)
    (hX : s₁.Xid = s₂.Xid) (hY : s₁.Yid = s₂.Yid) (hZ : s₁.Zid = s₂.Zid)
    (hwo : woB (idList (currentTape s₂).t) (currentTape s₂).t = true)
    (hst : ∀ x, x ∉ idList (currentTape s₂).t → x ≠ s₂.Xid → x ≠ s₂.Yid →
      x ≠ s₂.Zid → s₁.store x = s₂.store x) :
    (∀ q, (evalVApi T s₁ q).1 = (evalVApi T s₂ q).1) ∧
    (∀ q, (derivsAt T s₁ q).1 = (derivsAt T s₂ q).1) ∧
    (∀ lo hi, (evalIApi T s₁ lo hi).1 = (evalIApi T s₂ lo hi).1) ∧
    (∀ q, (gradientApi T s₁ q).1 = (gradientApi T s₂ q).1) := by
  have hsw : ∀ q : Vec3,
      valuesSweepL T (currentTape s₂).t
        (upd (upd (upd s₁.store s₂.Xid q.1) s₂.Yid q.2.1) s₂.Zid q.2.2) =
      valuesSweepL T (currentTape s₂).t
        (upd (upd (upd s₂.store s₂.Xid q.1) s₂.Yid q.2.1) s₂.Zid q.2.2) := by
    intro q
    apply sweep_agree_all T _ hwo
    intro x hx
    rw [upd, upd, upd, upd, upd, upd]
    by_cases h3 : x = s₂.Zid
    · rw [if_pos h3, if_pos h3]
    · rw [if_neg h3, if_neg h3]
      by_cases h2 : x = s₂.Yid
      · rw [if_pos h2, if_pos h2]
      · rw [if_neg h2, if_neg h2]
        by_cases h1 : x = s₂.Xid
        · rw [if_pos h1, if_pos h1]
        · rw [if_neg h1, if_neg h1]
          exact hst x hx h1 h2 h3
  refine ⟨?_, ?_, ?_, ?_⟩
  · intro q
    rw [evalV_obs, evalV_obs, hct, hX, hY, hZ, hsw q]
  · intro q
    rw [derivs_obs, derivs_obs, hct, hX, hY, hZ, hdx, hdy, hdz, hsw q]
  · intro lo hi
    rw [evalI_obs, evalI_obs, hct, hX, hY, hZ, hiv]
  · intro q
    rw [grad_obs, grad_obs, hct, hX, hY, hZ, hj, hvars, hsw q]

/-- A push followed by `pop` restores the previously active tape exactly
(cursor, the tape itself, hence its length, root and type tag) and leaves
every evaluation interface returning the same results. -/
@[reducible]
def restoresAndPreserves (T : Transc) (s s' : EvalState) : Prop :=
  s'.cursor = s.cursor ∧
  currentTape s' = currentTape s ∧
  (currentTape s').t.length = (currentTape s).t.length ∧
  (currentTape s').i = (currentTape s).i ∧
  (currentTape s').type = (currentTape s).type ∧
  (∀ q, (evalVApi T s' q).1 = (evalVApi T s q).1) ∧
  (∀ q, (derivsAt T s' q).1 = (derivsAt T s q).1) ∧
  (∀ lo hi, (evalIApi T s' lo hi).1 = (evalIApi T s lo hi).1) ∧
  (∀ q, (gradientApi T s' q).1 = (gradientApi T s q).1)

/-- Claim C3: each kind of push — `push()`, `push(Feature)`, `specialize` —
followed by `pop()` restores the previously active tape exactly (length,
root slot and type tag equal their pre-push values, indeed the whole tape is
the same), and every subsequent evaluation (values via `eval(p)`,
derivatives, interval, gradient) returns the same results as before the
push.  Hypotheses: a valid cursor, and the current tape well-ordered (the
reverse-topological SSA invariant of every built tape), which guards the
value rows `specialize`'s internal evaluation overwrites. -/
theorem claim3_push_pop (T : Transc) (s : EvalState) (f : Feature) (p : Vec3)
    (hv : s.cursor < s.tapes.length)
    (hwo : woB (idList (currentTape s).t) (currentTape s).t = true) :
    restoresAndPreserves T s (popOp (pushI s)) ∧
    restoresAndPreserves T s (popOp ((pushF s f).2)) ∧
    restoresAndPreserves T s (popOp (specializeOp T s p)) := by
  refine ⟨?_, ?_, ?_⟩
  · have hct := currentTape_pop_pushI s hv
    have ho := obs_preserved T (popOp (pushI s)) s hct rfl rfl rfl rfl rfl rfl rfl rfl
      rfl hwo (fun x _ _ _ _ => rfl)
    exact ⟨rfl, hct, by rw [hct], by rw [hct], by rw [hct],
      ho.1, ho.2.1, ho.2.2.1, ho.2.2.2⟩
  · have hct : currentTape (popOp ((pushF s f).2)) = currentTape s :=
      currentTape_pop_pushTapeOp s _ _ hv
    have ho := obs_preserved T (popOp ((pushF s f).2)) s hct rfl rfl rfl rfl rfl rfl
      rfl rfl rfl hwo (fun x _ _ _ _ => rfl)
    exact ⟨rfl, hct, by rw [hct], by rw [hct], by rw [hct],
      ho.1, ho.2.1, ho.2.2.1, ho.2.2.2⟩
  · have hct : currentTape (popOp (specializeOp T s p)) = currentTape s :=
      currentTape_pop_pushTapeOp ((evalVApi T s p).2) _ _ hv
    have hsp : ∀ x, x ∉ idList (currentTape s).t → x ≠ s.Xid → x ≠ s.Yid →
        x ≠ s.Zid → (popOp (specializeOp T s p)).store x = s.store x := by
      intro x hx h1 h2 h3
      show valuesSweepL T (currentTape s).t
        (upd (upd (upd s.store s.Xid p.1) s.Yid p.2.1) s.Zid p.2.2) x = s.store x
      rw [sweep_writes T _ _ x hx, upd, if_neg h3, upd, if_neg h2, upd, if_neg h1]
    have ho := obs_preserved T (popOp (specializeOp T s p)) s hct rfl rfl rfl rfl rfl
      rfl rfl rfl rfl hwo hsp
    exact ⟨rfl, hct, by rw [hct], by rw [hct], by rw [hct],
      ho.1, ho.2.1, ho.2.2.1, ho.2.2.2⟩

/-- The one-clause base tape of the claim C3 witness. -/
def tape3 : Tape :=
  ⟨[⟨Opcode.ADD, 1, 2, 3⟩], 1, TapeType.ORIGINAL, (0, 0), (0, 0), (0, 0)⟩

/-- The evaluator state of the claim C3 witness: X, Y, Z in slots 2, 3, 4. -/
def s3 : EvalState :=
  ⟨[tape3], 0, fun _ => 0, fun _ => 0, fun _ => 0, fun _ => 0, fun _ => (0, 0),
   fun _ => [], [], 2, 3, 4, 5⟩

/-- Witness for `claim3_push_pop`: on the one-clause state, each
push + pop pair restores the cursor and the tape, and evaluation at a fresh
point is unchanged even after a `specialize` (which overwrites value rows). -/
theorem claim3_push_pop_witness :
    (popOp (pushI s3)).cursor = s3.cursor ∧
      currentTape (popOp (specializeOp T0 s3 (1, 2, 3))) = currentTape s3 ∧
      (evalVApi T0 (popOp (specializeOp T0 s3 (1, 2, 3))) (5, 6, 7)).1 =
        (evalVApi T0 s3 (5, 6, 7)).1 := by
  have h := claim3_push_pop T0 s3 ⟨(0, 0, 0), [], []⟩ (1, 2, 3)
    (by norm_num [s3]) (by rfl)
  exact ⟨h.1.1, h.2.2.2.1, h.2.2.2.2.2.2.2.1 (5, 6, 7)⟩

/-! ## isInside at a non-ambiguous boundary point (claim C6) -/

/-- Claim C6: when the evaluated value at `p` is exactly 0 and the current
tape is not ambiguous there, `isInside(p)` returns true iff the spatial
gradient at `p` is nonzero. -/
theorem claim6_isInside_boundary (T : Transc) (compat : List Vec3 → Vec3 → Bool)
    (fuel : Nat) (s : EvalState) (p : Vec3)
    (h0 : (derivsAt T s p).1.v = 0)
    (hamb : isAmbB (derivsAt T s p).2 = false) :
    isInsideFn T compat fuel s p =
      some ((decide ((derivsAt T s p).1.dx ≠ 0) || decide ((derivsAt T s p).1.dy ≠ 0) ||
        decide ((derivsAt T s p).1.dz ≠ 0)), (derivsAt T s p).2) ∧
    ∀ b s', isInsideFn T compat fuel s p = some (b, s') →
      (b = true ↔ ((derivsAt T s p).1.dx ≠ 0 ∨ (derivsAt T s p).1.dy ≠ 0 ∨
        (derivsAt T s p).1.dz ≠ 0)) := by
  have hlt : ¬ ((derivsAt T s p).1.v < 0) := by rw [h0]; exact lt_irrefl 0
  have hgt : ¬ (0 < (derivsAt T s p).1.v) := by rw [h0]; exact lt_irrefl 0
  have hna : ¬ (isAmbB (derivsAt T s p).2 = true) := by rw [hamb]; simp
  have hmain : isInsideFn T compat fuel s p =
      some ((decide ((derivsAt T s p).1.dx ≠ 0) || decide ((derivsAt T s p).1.dy ≠ 0) ||
        decide ((derivsAt T s p).1.dz ≠ 0)), (derivsAt T s p).2) := by
    simp only [isInsideFn]
    rw [if_neg hlt, if_neg hgt, if_pos hna]
  refine ⟨hmain, ?_⟩
  intro b s' h
  rw [hmain] at h
  have hb := (Prod.mk.injEq _ _ _ _).mp (Option.some.inj h)
  rw [← hb.1]
  simp only [Bool.or_eq_true, decide_eq_true_eq]
  tauto

/-- The evaluator state of the claim C6 witness: the root is the X axis slot
(slot 2), whose derivative row is the seeded `(1, 0, 0)`. -/
def s6 : EvalState :=
  ⟨[⟨[], 2, TapeType.ORIGINAL, (0, 0), (0, 0), (0, 0)⟩], 0, fun _ => 0,
   fun x => if x = 2 then 1 else 0, fun _ => 0, fun _ => 0, fun _ => (0, 0),
   fun _ => [], [], 2, 3, 4, 5⟩

/-- The trivially-true feasibility oracle used by witnesses. -/
def compat0 : List Vec3 → Vec3 → Bool := fun _ _ => true

/-- Witness for `claim6_isInside_boundary`: at `p = (0, 5, 7)` the field
`f = x` is zero with gradient `(1, 0, 0)`, so the point classifies inside. -/
theorem claim6_isInside_boundary_witness :
    (derivsAt T0 s6 (0, 5, 7)).1.v = 0 ∧
      isAmbB (derivsAt T0 s6 (0, 5, 7)).2 = false ∧
      (isInsideFn T0 compat0 1 s6 (0, 5, 7)).map Prod.fst = some true := by
  have h0 : (derivsAt T0 s6 (0, 5, 7)).1.v = 0 := rfl
  have hamb : isAmbB (derivsAt T0 s6 (0, 5, 7)).2 = false := rfl
  have h := claim6_isInside_boundary T0 compat0 1 s6 (0, 5, 7) h0 hamb
  refine ⟨h0, hamb, ?_⟩
  rw [h.1]
  have hdx : (derivsAt T0 s6 (0, 5, 7)).1.dx = 1 := rfl
  simp [hdx]

/-! ## featuresAt: non-emptiness, distinctness, cursor balance
(claims C7, C10) -/

/-- Every completed `faLoop` run ends at the cursor it started from: each
`push(Feature)` inside the worklist body is matched by the `pop` at the end
of that iteration. -/
lemma faLoop_cursor (T : Transc) (compat : List Vec3 → Vec3 → Bool) :
    ∀ (fuel : Nat) (todo done : List Feature) (seen : List (List Choice))
      (s : EvalState) (res : List Feature × EvalState),
      faLoop T compat fuel todo done seen s = some res → res.2.cursor = s.cursor := by
  intro fuel
  induction fuel with
  | zero =>
    intro todo done seen s res h
    exact absurd h (by rw [faLoop]; simp)
  | succ n ih =>
    intro todo done seen s res h
    cases todo with
    | nil =>
      rw [faLoop] at h
      rw [← Option.some.inj h]
    | cons f rest =>
      simp only [faLoop] at h
      split at h
      · split at h
        · exact (ih _ _ _ _ _ h).trans rfl
        · exact (ih _ _ _ _ _ h).trans rfl
      · exact (ih _ _ _ _ _ h).trans rfl

/-- The dedup invariant: a completed `faLoop` run returns a feature list
whose choice tuples are pairwise distinct, provided `seen` mirrors `done`'s
choice tuples and has no duplicates. -/
lemma faLoop_nodup (T : Transc) (compat : List Vec3 → Vec3 → Bool) :
    ∀ (fuel : Nat) (todo done : List Feature) (seen : List (List Choice))
      (s : EvalState) (res : List Feature × EvalState),
      faLoop T compat fuel todo done seen s = some res →
      (done.map Feature.choices).reverse = seen → seen.Nodup →
      (res.1.map Feature.choices).Nodup := by
  intro fuel
  induction fuel with
  | zero =>
    intro todo done seen s res h
    exact absurd h (by rw [faLoop]; simp)
  | succ n ih =>
    intro todo done seen s res h hmirror hnd
    cases todo with
    | nil =>
      rw [faLoop] at h
      rw [← Option.some.inj h]
      rw [← hmirror] at hnd
      exact List.nodup_reverse.mp hnd
    | cons f rest =>
      simp only [faLoop] at h
      split at h
      · split at h
        · exact ih _ _ _ _ _ h hmirror hnd
        · rename_i hspawn hmem
          refine ih _ _ _ _ _ h ?_ ?_
          · rw [List.map_append, List.reverse_append, hmirror]
            rfl
          · exact List.Nodup.cons hmem hnd
      · exact ih _ _ _ _ _ h hmirror hnd

/-- The non-emptiness invariant: a completed `faLoop` run returns at least
one feature, provided the worklist is non-empty (or something is already
finished) and `seen` is empty whenever `done` is. -/
lemma faLoop_ne_nil (T : Transc) (compat : List Vec3 → Vec3 → Bool) :
    ∀ (fuel : Nat) (todo done : List Feature) (seen : List (List Choice))
      (s : EvalState) (res : List Feature × EvalState),
      faLoop T compat fuel todo done seen s = some res →
      (todo = [] → done ≠ []) → (done = [] → seen = []) →
      res.1 ≠ [] := by
  intro fuel
  induction fuel with
  | zero =>
    intro todo done seen s res h
    exact absurd h (by rw [faLoop]; simp)
  | succ n ih =>
    intro todo done seen s res h h1 h2
    cases todo with
    | nil =>
      rw [faLoop] at h
      rw [← Option.some.inj h]
      exact h1 rfl
    | cons f rest =>
      simp only [faLoop] at h
      split at h
      · split at h
        · rename_i hspawn hmem
          have hseen : seen ≠ [] := by
            intro hs
            rw [hs] at hmem
            exact List.not_mem_nil _ hmem
          have hdone : done ≠ [] := fun hd => hseen (h2 hd)
          exact ih _ _ _ _ _ h (fun _ => hdone) (fun hd => absurd hd hdone)
        · exact ih _ _ _ _ _ h (fun _ => by simp) (fun hd => by simp at hd)
      · rename_i hspawn
        have htodo : rest ++ scanAmbig compat (derivsApi T (pushF s f).2).2 (pushF s f).1
            ((currentTape (derivsApi T (pushF s f).2).2).t.reverse) ≠ [] := by
          intro hempty
          apply hspawn
          rw [List.isEmpty_iff]
          rcases List.append_eq_nil.mp hempty with ⟨_, hsp⟩
          exact hsp
        exact ih _ _ _ _ _ h (fun ht => absurd ht htodo) h2

/-- Claim C7: a completed `featuresAt(p)` returns a non-empty list of
features that are pairwise distinct by their choice tuples. -/
theorem claim7_featuresAt (T : Transc) (compat : List Vec3 → Vec3 → Bool)
    (fuel : Nat) (s : EvalState) (p : Vec3) (r : List Feature × EvalState)
    (h : featuresAt T compat fuel s p = some r) :
    r.1 ≠ [] ∧ r.1.Pairwise (fun f g => f.choices ≠ g.choices) := by
  rw [featuresAt] at h
  cases hfa : faLoop T compat fuel [⟨(0, 0, 0), [], []⟩] [] [] (specializeOp T s p) with
  | none => rw [hfa] at h; exact absurd h (by simp)
  | some r0 =>
    rw [hfa] at h
    have hr : r = (r0.1, popOp r0.2) := (Option.some.inj h).symm
    have hne := faLoop_ne_nil T compat fuel _ _ _ _ r0 hfa
      (fun ht => absurd ht (by simp)) (fun _ => rfl)
    have hnd := faLoop_nodup T compat fuel _ _ _ _ r0 hfa rfl List.nodup_nil
    rw [hr]
    refine ⟨hne, ?_⟩
    rw [List.Nodup, List.pairwise_map] at hnd
    exact hnd

/-- Claim C10: a completed `featuresAt(p)` leaves the tape-stack cursor
exactly where it was: the `specialize` push and every `push(Feature)` inside
the loop are matched by pops. -/
theorem claim10_featuresAt_cursor (T : Transc) (compat : List Vec3 → Vec3 → Bool)
    (fuel : Nat) (s : EvalState) (p : Vec3) (r : List Feature × EvalState)
    (h : featuresAt T compat fuel s p = some r) :
    r.2.cursor = s.cursor := by
  rw [featuresAt] at h
  cases hfa : faLoop T compat fuel [⟨(0, 0, 0), [], []⟩] [] [] (specializeOp T s p) with
  | none => rw [hfa] at h; exact absurd h (by simp)
  | some r0 =>
    rw [hfa] at h
    have hr : r = (r0.1, popOp r0.2) := (Option.some.inj h).symm
    have hc := faLoop_cursor T compat fuel _ _ _ _ r0 hfa
    rw [hr]
    show r0.2.cursor - 1 = s.cursor
    rw [hc]
    rfl

/-- The feature list computed by the claim C7 witness's concrete run. -/
def fa7 : List Feature :=
  ((featuresAt T0 compat0 3 s3 (1, 2, 3)).map Prod.fst).getD []

/-- Witness for `claim7_featuresAt`: a concrete three-slot run completes
within fuel 3 and returns one feature with no duplicate choice tuple. -/
theorem claim7_featuresAt_witness :
    fa7 ≠ [] ∧ fa7.Pairwise (fun f g => f.choices ≠ g.choices) := by
  have hs : (featuresAt T0 compat0 3 s3 (1, 2, 3)).isSome = true := rfl
  obtain ⟨r, hr⟩ := Option.isSome_iff_exists.mp hs
  have h := claim7_featuresAt T0 compat0 3 s3 (1, 2, 3) r hr
  have hfa : fa7 = r.1 := by rw [fa7, hr]; rfl
  rw [hfa]
  exact h

/-- Witness for `claim10_featuresAt_cursor` on the same concrete run. -/
theorem claim10_featuresAt_cursor_witness :
    ((featuresAt T0 compat0 3 s3 (1, 2, 3)).map (fun r => r.2.cursor)).getD 99 =
      s3.cursor := by
  have hs : (featuresAt T0 compat0 3 s3 (1, 2, 3)).isSome = true := rfl
  obtain ⟨r, hr⟩ := Option.isSome_iff_exists.mp hs
  have h := claim10_featuresAt_cursor T0 compat0 3 s3 (1, 2, 3) r hr
  rw [hr]
  simpa using h

end LibfiveEval
